import Mathlib

/-!
# LooUQ-DeviceCommon: `lq-collections.c`

Shallow embedding of the query-string dictionary (`lq_createQryStrDictionary`,
`lq_getQryStrDictionaryValue`) and of the JSON property locator
(`lq_getJsonPropValue`, `findJsonBlockLength`), followed by the properties
proved about them.

Conventions of the embedding

* a byte is a `Nat` (its character code), a buffer is a `List Nat`;
* a pointer into a buffer is the offset from the buffer's first byte, and a
  pointer that may be `NULL` is an `Option Nat`;
* a C string inside a buffer ends at the first `0` byte (or at the end of the
  list, which stands for a terminator right behind the modelled bytes);
* in the dictionary builder a store outside the list is dropped and a read
  outside it sees nothing; the theorems are stated for buffers that own every
  byte the C code touches (the query string and the byte at offset `qsSize`);
* a function whose C code can leave a fixed-size array or dereference `NULL`
  returns an `Option`, `none` standing for a call without defined result;
* `uint8_t` and `uint16_t` values are reduced modulo 256 and 65536 where the
  source declares them; `lq-collections.h` is not part of the sources, so the
  slot count `lqCollections__maxKeyValueDictCnt` is a parameter (`maxCnt`) and
  the fields of `keyValueDict_t` and `lqJsonPropValue_t` are natural numbers.

Character codes used below: `"` 34, `&` 38, `,` 44, `.` 46, `:` 58, `=` 61,
`[` 91, `]` 93, `f` 102, `n` 110, `t` 116, `{` 123, `}` 125, space 32, tab 9.
-/

namespace LqCollections

/-! ## Definitions -/

/-- The bytes of the C string that starts at the head of `s`. -/
def cstr (s : List Nat) : List Nat := s.takeWhile (fun b => b != 0)

/-- The bytes of the C string that starts at offset `p` of `buf`. -/
def cstrAt (buf : List Nat) (p : Nat) : List Nat := cstr (buf.drop p)

/-- C `strlen`. -/
def strlen (s : List Nat) : Nat := (cstr s).length

/-- Scan of `memchr`: `off` is the offset of the head of the list. -/
def memchrFrom : List Nat → Nat → Nat → Nat → Option Nat
  | [], _, _, _ => none
  | _ :: _, _, 0, _ => none
  | b :: bs, c, n + 1, off => if b = c then some off else memchrFrom bs c n (off + 1)

/-- C `memchr(buf + s, c, n)`: the offset in `buf` of the first byte `c` among
the `n` bytes from offset `s` on, `none` for a `NULL` result. -/
def memchr (buf : List Nat) (s c n : Nat) : Option Nat := memchrFrom (buf.drop s) c n s

/-- C `strncpy(dst, src, n)`, `src` given by its string bytes: the first `n`
bytes of `dst` become the bytes of `src` (at most `n` of them) followed by `0`
padding; no terminator is stored when `src` has `n` bytes or more. -/
def strncpy (dst src : List Nat) (n : Nat) : List Nat :=
  (src.take n ++ List.replicate (n - src.length) 0) ++ dst.drop n

/-- The dictionary overlay `keyValueDict_t`: `keys[i]` and `values[i]` are
pointers into the source buffer (`none` is `NULL`). -/
structure keyValueDict_t where
  count : Nat
  length : Nat
  keys : List (Option Nat)
  values : List (Option Nat)
  deriving DecidableEq, Repr

/-- The initialiser `{0}` for a dictionary of `maxCnt` slots. -/
def keyValueDict_t.zero (maxCnt : Nat) : keyValueDict_t :=
  { count := 0, length := 0,
    keys := List.replicate maxCnt none, values := List.replicate maxCnt none }

/-- First loop of `lq_createQryStrDictionary` (names + values), `fuel` being
the number of iterations left before `i` reaches the slot count. -/
def segmentPass (endAt : Nat) :
    Nat → Nat → Nat → List Nat → keyValueDict_t → keyValueDict_t × List Nat
  | 0, _, _, buf, result => (result, buf)
  | fuel + 1, i, dictSrc, buf, result =>
    let delimAt := (memchr buf dictSrc 38 (endAt - dictSrc)).getD endAt
    let result := { result with keys := result.keys.set i (some dictSrc), count := i }
    let buf := buf.set delimAt 0
    if delimAt = endAt then (result, buf)
    else segmentPass endAt fuel (i + 1) (delimAt + 1) buf result

/-- Second loop of `lq_createQryStrDictionary` (split names/values), `fuel`
being `result.count - i`. A `NULL` key slot can only be met when the
dictionary has no slot at all; the scan then finds nothing. -/
def splitPass (endAt : Nat) :
    Nat → Nat → List Nat → keyValueDict_t → keyValueDict_t × List Nat
  | 0, _, buf, result => (result, buf)
  | fuel + 1, i, buf, result =>
    match (result.keys.getD i none).bind (fun k => memchr buf k 61 (endAt - k)) with
    | none => ({ result with count := i }, buf)
    | some delimAt =>
      splitPass endAt fuel (i + 1) (buf.set delimAt 0)
        { result with values := result.values.set i (some (delimAt + 1)) }

/-- The function `lq_createQryStrDictionary(dictSrc, qsSize)` for a dictionary of
`maxCnt` slots (`lqCollections__maxKeyValueDictCnt`): the dictionary and the
source buffer after the call. -/
def lq_createQryStrDictionary (maxCnt : Nat) (dictSrc : List Nat) (qsSize : Nat) :
    keyValueDict_t × List Nat :=
  if qsSize = 0 then (keyValueDict_t.zero maxCnt, dictSrc)
  else
    let result := { keyValueDict_t.zero maxCnt with length := qsSize }
    let endAt := 0 + result.length
    let p1 := segmentPass endAt maxCnt 0 0 dictSrc result
    let result := { p1.1 with count := p1.1.count + 1 }
    splitPass endAt result.count 0 p1.2 result

/-- The loop of `lq_getQryStrDictionaryValue`; `none` when a `NULL` key or
value among the scanned entries is dereferenced. -/
def lookupLoop (key : List Nat) (dict : keyValueDict_t) (src value : List Nat) (n : Nat) :
    Nat → Nat → Option (List Nat)
  | 0, _ => some value
  | fuel + 1, i =>
    match dict.keys.getD i none with
    | none => none
    | some k =>
      if cstrAt src k = cstr key then
        match dict.values.getD i none with
        | none => none
        | some v => some (strncpy value (cstrAt src v) n)
      else lookupLoop key dict src value n fuel (i + 1)

/-- The function `lq_getQryStrDictionaryValue(key, dict, value, valSz)`, `src`
being the buffer the dictionary points into: the output buffer `value` after
the call. `valSz` is a `uint8_t`; `valSz-1` is computed as an `int` and
converted to `size_t` (32 bits here), so `valSz = 0` asks for `2^32 - 1` bytes. -/
def lq_getQryStrDictionaryValue (key : List Nat) (dict : keyValueDict_t) (src : List Nat)
    (value : List Nat) (valSz : Nat) : Option (List Nat) :=
  match dict.keys.getD 0 none with
  | none => some value
  | some k0 =>
    if src.getD k0 0 = 0 then some value
    else
      let n := if valSz % 256 = 0 then 2 ^ 32 - 1 else valSz % 256 - 1
      lookupLoop key dict src value n dict.count 0

/-- The query string `k1=v1&...&kn=vn` of a list of pairs. -/
def joinPairs : List (List Nat × List Nat) → List Nat
  | [] => []
  | [kv] => kv.1 ++ 61 :: kv.2
  | kv :: rest => kv.1 ++ 61 :: kv.2 ++ 38 :: joinPairs rest

/-- A list of `&`-free segments laid out in a buffer: `&` between segments
and the byte `t` (the byte at offset `qsSize`) behind the last one. -/
def flatS (t : Nat) : List (List Nat) → List Nat
  | [] => []
  | [s] => s ++ [t]
  | s :: ss => s ++ 38 :: flatS t ss

/-- The layout `flatS` after the first loop has closed `f` segments. -/
def p1Buf (t : Nat) : Nat → List (List Nat) → List Nat
  | 0, ss => flatS t ss
  | _ + 1, [] => []
  | f + 1, s :: ss => s ++ 0 :: p1Buf t f ss

/-- The key slots after the first loop has run from slot `i` and offset `off`
over `f` segments. -/
def keysAfter : Nat → Nat → Nat → List (List Nat) → List (Option Nat) → List (Option Nat)
  | 0, _, _, _, keys => keys
  | _ + 1, _, _, [], keys => keys
  | f + 1, i, off, s :: ss, keys =>
    keysAfter f (i + 1) (off + s.length + 1) ss (keys.set i (some off))

/-- The segment `k=v` of a pair. -/
def seg (kv : List Nat × List Nat) : List Nat := kv.1 ++ 61 :: kv.2

/-- Offset of the `j`-th key in the layout of a list of pairs. -/
def keyOff : List (List Nat × List Nat) → Nat → Nat
  | [], _ => 0
  | _ :: _, 0 => 0
  | kv :: ps, j + 1 => kv.1.length + 1 + kv.2.length + 1 + keyOff ps j

/-- The layout of a list of pairs after both loops have handled `m` of them. -/
def p2Buf (t : Nat) : Nat → List (List Nat × List Nat) → List Nat
  | 0, ps => flatS t (ps.map seg)
  | _ + 1, [] => []
  | m + 1, kv :: ps => kv.1 ++ 0 :: kv.2 ++ 0 :: p2Buf t m ps

/-- The value slots after the second loop has run from slot `i` and offset
`off` over `m` pairs. -/
def valuesAfter : Nat → Nat → Nat → List (List Nat × List Nat) → List (Option Nat) →
    List (Option Nat)
  | 0, _, _, _, vals => vals
  | _ + 1, _, _, [], vals => vals
  | m + 1, i, off, kv :: ps, vals =>
    valuesAfter m (i + 1) (off + kv.1.length + 1 + kv.2.length + 1) ps
      (vals.set i (some (off + kv.1.length + 1)))

/-- A list of segments joined by `&`: the query string `s1&s2&...&sn`. -/
def joinSegs : List (List Nat) → List Nat
  | [] => []
  | [s] => s
  | s :: ss => s ++ 38 :: joinSegs ss

/-! ### JSON property locator -/

/-- The enumeration `lqJsonPropType_t` (kind of a located value). -/
inductive lqJsonPropType_t where
  | lqcJsonPropType_notFound
  | lqcJsonPropType_object
  | lqcJsonPropType_array
  | lqcJsonPropType_text
  | lqcJsonPropType_bool
  | lqcJsonPropType_int
  | lqcJsonPropType_float
  | lqcJsonPropType_null
  deriving DecidableEq, Repr

open lqJsonPropType_t

/-- The result `lqJsonPropValue_t`: `value` points into the JSON buffer (`none`
is `NULL`), `len` is the length of the value, `type` its kind. -/
structure lqJsonPropValue_t where
  value : Option Nat
  len : Nat
  type : lqJsonPropType_t
  deriving DecidableEq, Repr

/-- Whether the list starts with the bytes of `pat`. -/
def startsWith : List Nat → List Nat → Bool
  | _, [] => true
  | [], _ :: _ => false
  | b :: bs, q :: qs => b == q && startsWith bs qs

/-- Scan of `strstr`: `off` is the offset of the head of the list. -/
def strstrFrom : List Nat → List Nat → Nat → Option Nat
  | [], pat, off => if startsWith [] pat then some off else none
  | b :: bs, pat, off =>
    if startsWith (b :: bs) pat then some off else strstrFrom bs pat (off + 1)

/-- C `strstr(hay, pat)`, `pat` given by its string bytes: the offset of the
first occurrence of `pat` in the string at the head of `hay`, `none` for `NULL`. -/
def strstr (hay pat : List Nat) : Option Nat := strstrFrom (cstr hay) pat 0

/-- C `memcpy(dst + off, src, n)` into a buffer of fixed size; `none` when the
copy leaves the buffer. -/
def memcpyAt (dst : List Nat) (off : Nat) (src : List Nat) (n : Nat) : Option (List Nat) :=
  if off + n ≤ dst.length then some (dst.take off ++ src.take n ++ dst.drop (off + n))
  else none

/-- The store `buf[i] = v` into a buffer of fixed size; `none` when `i` is
outside the buffer. -/
def storeAt (buf : List Nat) (i v : Nat) : Option (List Nat) :=
  if i < buf.length then some (buf.set i v) else none

/-- Reading a buffer of fixed size as a C string; `none` when the buffer holds
no NUL (the read leaves the buffer). -/
def cstrIn (buf : List Nat) : Option (List Nat) :=
  if 0 ∈ buf then some (cstr buf) else none

/-- The search pattern of `lq_getJsonPropValue`: the 40-byte array `propSearch`
filled with quote, name, quote and read back as a C string by `strstr`; `none`
when a store or the read leaves the array. `nameSz` is a `uint8_t`. -/
def propSearch (propName : List Nat) : Option (List Nat) :=
  let nameSz := strlen propName % 256
  (memcpyAt (List.replicate 40 0) 1 propName nameSz).bind fun b1 =>
  (storeAt b1 0 34).bind fun b2 =>
  (storeAt b2 (nameSz + 1) 34).bind fun b3 =>
  cstrIn b3

/-- The loop of `findJsonBlockLength`: the final `next`. `openPairs` is a
`uint8_t`; `fuel` bounds the iterations by the distance to `jsonEnd`. -/
def blockScan (json : List Nat) (jsonEnd blockOpen blockClose : Nat) : Nat → Nat → Nat → Nat
  | 0, _, next => next
  | fuel + 1, openPairs, next =>
    if openPairs > 0 ∧ next < jsonEnd then
      let next := next + 1
      let openPairs :=
        if json.getD next 0 = blockOpen then (openPairs + 1) % 256 else openPairs
      let openPairs :=
        if json.getD next 0 = blockClose then (openPairs + 255) % 256 else openPairs
      blockScan json jsonEnd blockOpen blockClose fuel openPairs next
    else next

/-- The function `findJsonBlockLength(blockStart, jsonEnd, blockOpen, blockClose)`;
the result is a `uint16_t`. -/
def findJsonBlockLength (json : List Nat) (blockStart jsonEnd blockOpen blockClose : Nat) :
    Nat :=
  (blockScan json jsonEnd blockOpen blockClose (jsonEnd - blockStart) 1 blockStart
    - blockStart + 1) % 65536

/-- The loop of `findJsonBlockLength` with an unbounded open-pair counter: the
same scan without the reduction of `openPairs` modulo 256. -/
def blockScanUnbounded (json : List Nat) (jsonEnd blockOpen blockClose : Nat) :
    Nat → Nat → Nat → Nat
  | 0, _, next => next
  | fuel + 1, openPairs, next =>
    if openPairs > 0 ∧ next < jsonEnd then
      let next := next + 1
      let openPairs := if json.getD next 0 = blockOpen then openPairs + 1 else openPairs
      let openPairs := if json.getD next 0 = blockClose then openPairs - 1 else openPairs
      blockScanUnbounded json jsonEnd blockOpen blockClose fuel openPairs next
    else next

/-- The function `findJsonBlockLength` with an unbounded open-pair counter. -/
def findJsonBlockLengthUnbounded (json : List Nat)
    (blockStart jsonEnd blockOpen blockClose : Nat) : Nat :=
  (blockScanUnbounded json jsonEnd blockOpen blockClose (jsonEnd - blockStart) 1 blockStart
    - blockStart + 1) % 65536

/-- The loop of `lq_getJsonPropValue` that skips space or tab: the offset of the
first other byte, `none` when the loop returns the zeroed result. -/
def skipBlanks (json : List Nat) (jsonEnd : Nat) : Nat → Nat → Option Nat
  | 0, next => some next
  | fuel + 1, next =>
    if json.getD next 0 = 32 ∨ json.getD next 0 = 9 then
      if next + 1 ≥ jsonEnd then none else skipBlanks json jsonEnd fuel (next + 1)
    else some next

/-- The loop of the `default` case of `lq_getJsonPropValue`: the final `next`
and the kind. -/
def numScan (json : List Nat) (jsonEnd : Nat) :
    Nat → Nat → lqJsonPropType_t → Nat × lqJsonPropType_t
  | 0, next, ty => (next, ty)
  | fuel + 1, next, ty =>
    if json.getD next 0 ≠ 44 ∧ json.getD next 0 ≠ 125 ∧ next < jsonEnd then
      numScan json jsonEnd fuel (next + 1)
        (if json.getD (next + 1) 0 = 46 then lqcJsonPropType_float else ty)
    else (next, ty)

/-- The `switch` of `lq_getJsonPropValue` on the byte at `next`. The result is
`none` in the text case when no closing quote is found: the length is then the
difference of a null pointer and `value`, which is undefined. -/
def classify (json : List Nat) (jsonEnd next : Nat) : Option lqJsonPropValue_t :=
  let c := json.getD next 0
  if c = 123 then
    some { type := lqcJsonPropType_object, value := some next,
           len := findJsonBlockLength json next jsonEnd 123 125 }
  else if c = 91 then
    some { type := lqcJsonPropType_array, value := some next,
           len := findJsonBlockLength json next jsonEnd 91 93 }
  else if c = 34 then
    (memchr json (next + 1) 34 (jsonEnd - (next + 1))).map fun q =>
      { type := lqcJsonPropType_text, value := some (next + 1), len := q - (next + 1) }
  else if c = 116 then
    some { type := lqcJsonPropType_bool, value := some next, len := 4 }
  else if c = 102 then
    some { type := lqcJsonPropType_bool, value := some next, len := 5 }
  else if c = 110 then
    some { type := lqcJsonPropType_null, value := some next, len := 4 }
  else
    let r := numScan json jsonEnd (jsonEnd - next) next lqcJsonPropType_int
    some { type := r.2, value := some next, len := r.1 - next }

/-- The function `lq_getJsonPropValue(jsonSrc, propName)`; `none` when the call
has no defined result (the pattern array is overrun, or a text value is not
closed). The bytes of `jsonSrc` behind its end read as NUL. -/
def lq_getJsonPropValue (jsonSrc propName : List Nat) : Option lqJsonPropValue_t :=
  let results : lqJsonPropValue_t :=
    { value := none, len := 0, type := lqcJsonPropType_notFound }
  let jsonEnd := strlen jsonSrc
  let nameSz := strlen propName % 256
  match propSearch propName with
  | none => none
  | some pat =>
    match strstr jsonSrc pat with
    | none => some results
    | some nameAt =>
      match memchr jsonSrc (nameAt + nameSz) 58 (jsonEnd - (nameAt + nameSz)) with
      | none => some results
      | some colonAt =>
        match skipBlanks jsonSrc jsonEnd (jsonEnd - colonAt) (colonAt + 1) with
        | none => some results
        | some next => classify jsonSrc jsonEnd next

/-- A result whose value pointer is moved `n` bytes forward (a `NULL` value stays
`NULL`); kind and length are kept. -/
def shiftValue (n : Nat) (r : lqJsonPropValue_t) : lqJsonPropValue_t :=
  { r with value := r.value.map (fun v => n + v) }

/-- The quoted name (quote, bytes of the name, quote) stands at offset `m` of the
JSON string. -/
@[reducible] def QuotedNameAt (jsonSrc propName : List Nat) (m : Nat) : Prop :=
  ((cstr jsonSrc).drop m).take (strlen propName + 2) = 34 :: (cstr propName ++ [34])

/-- The first occurrence of the quoted name in the JSON string is at offset `m`. -/
@[reducible] def FirstMatch (jsonSrc propName : List Nat) (m : Nat) : Prop :=
  QuotedNameAt jsonSrc propName m ∧ ∀ i, i < m → ¬ QuotedNameAt jsonSrc propName i

/-- The colon of the match at `m`: `c` is the offset of the first `:` byte of the
JSON string behind the quoted name (which ends at `m + strlen propName + 1`). -/
@[reducible] def ColonAfterMatch (jsonSrc propName : List Nat) (m c : Nat) : Prop :=
  m + strlen propName + 2 ≤ c ∧ c < strlen jsonSrc ∧ jsonSrc.getD c 0 = 58 ∧
  ∀ j, m + strlen propName + 2 ≤ j → j < c → jsonSrc.getD j 0 ≠ 58

/-- The first significant byte after the colon of the first match is at offset
`p`: the quoted name first occurs at some `m`, the first `:` behind it is at some
`c`, every byte between `c` and `p` is a space or a tab, and the byte at `p`, inside
the string, is neither. -/
@[reducible] def ValueStart (jsonSrc propName : List Nat) (p : Nat) : Prop :=
  ∃ m c, FirstMatch jsonSrc propName m ∧ ColonAfterMatch jsonSrc propName m c ∧
    c < p ∧ p < strlen jsonSrc ∧
    (∀ j, c < j → j < p → jsonSrc.getD j 0 = 32 ∨ jsonSrc.getD j 0 = 9) ∧
    jsonSrc.getD p 0 ≠ 32 ∧ jsonSrc.getD p 0 ≠ 9

/-- The last byte of the name is `:`. -/
@[reducible] def EndsInColon (propName : List Nat) : Prop :=
  (cstr propName).getD (strlen propName - 1) 0 = 58

/-- The locating steps of `lq_getJsonPropValue` as the code performs them (this
follows the source, not the specification): `strstr` returns `m`, `memchr` for `:`
started at `nameAt + nameSz` returns `c`, and the loop that skips spaces and tabs
started at `c + 1` leaves `next = p`. -/
def CodeLocates (jsonSrc propName : List Nat) (p : Nat) : Prop :=
  ∃ m c,
    strstr jsonSrc (34 :: (cstr propName ++ [34])) = some m ∧
    memchr jsonSrc (m + strlen propName) 58 (strlen jsonSrc - (m + strlen propName)) =
      some c ∧
    skipBlanks jsonSrc (strlen jsonSrc) (strlen jsonSrc - c) (c + 1) = some p

/-- The running count of open pairs with an unbounded counter: 1 plus the
number of `o` bytes minus the number of `c` bytes among the `k` bytes that
follow offset `p`. -/
def depthFrom (json : List Nat) (o c p : Nat) : Nat → Int
  | 0 => 1
  | k + 1 =>
    depthFrom json o c p k + (if json.getD (p + k + 1) 0 = o then 1 else 0)
      - (if json.getD (p + k + 1) 0 = c then 1 else 0)

/-- The JSON text `"x":{` + `n` spaces + `}`: an object of `n + 2` bytes at offset 4. -/
def paddedBlock (n : Nat) : List Nat := [34, 120, 34, 58, 123] ++ (List.replicate n 32 ++ [125])

theorem memchrFrom_found (s post : List Nat) (c n off : Nat) (hc : c ∉ s)
    (hn : s.length < n) : memchrFrom (s ++ c :: post) c n off = some (off + s.length) := by
  induction s generalizing n off with
  | nil =>
    cases n with
    | zero => omega
    | succ n => simp [memchrFrom]
  | cons b bs ih =>
    cases n with
    | zero => simp at hn
    | succ n =>
      have hb : b ≠ c := fun h => hc (by simp [h])
      have hbs : c ∉ bs := fun h => hc (by simp [h])
      rw [List.cons_append, memchrFrom, if_neg hb, ih n (off + 1) hbs (by simpa using hn)]
      simp only [List.length_cons]
      congr 1
      omega

theorem memchrFrom_none (s post : List Nat) (c n off : Nat) (hc : c ∉ s)
    (hn : n ≤ s.length) : memchrFrom (s ++ post) c n off = none := by
  induction s generalizing n off with
  | nil =>
    have : n = 0 := by simpa using hn
    subst this
    cases post <;> simp [memchrFrom]
  | cons b bs ih =>
    cases n with
    | zero => simp [memchrFrom]
    | succ n =>
      have hb : b ≠ c := fun h => hc (by simp [h])
      have hbs : c ∉ bs := fun h => hc (by simp [h])
      rw [List.cons_append, memchrFrom, if_neg hb]
      exact ih n (off + 1) hbs (by simpa using hn)

theorem memchr_append (pre x : List Nat) (c n : Nat) :
    memchr (pre ++ x) pre.length c n = memchrFrom x c n pre.length := by
  simp [memchr]

theorem set_append_mid (pre s post : List Nat) (d v : Nat) :
    (pre ++ (s ++ d :: post)).set (pre.length + s.length) v = pre ++ (s ++ v :: post) := by
  rw [List.set_append_right _ _ (by omega)]
  congr 1
  rw [show pre.length + s.length - pre.length = s.length by omega]
  rw [List.set_append_right _ _ (by omega)]
  simp

theorem cstr_append_nul (k post : List Nat) (hk : 0 ∉ k) : cstr (k ++ 0 :: post) = k := by
  induction k with
  | nil => simp [cstr]
  | cons b bs ih =>
    have hb : b ≠ 0 := fun h => hk (by simp [h])
    have hbs : 0 ∉ bs := fun h => hk (by simp [h])
    have := ih hbs
    simp only [cstr] at this ⊢
    have hb2 : (b != 0) = true := by simpa using hb
    rw [List.cons_append, List.takeWhile_cons, hb2, this]
    rfl

theorem cstrAt_append_nul (pre k post : List Nat) (hk : 0 ∉ k) :
    cstrAt (pre ++ (k ++ 0 :: post)) pre.length = k := by
  simp [cstrAt, cstr_append_nul k post hk]

/-! ## The first loop on a buffer of `&`-free segments -/

theorem flatS_length_pos (t : Nat) (segs : List (List Nat)) (hne : segs ≠ []) :
    0 < (flatS t segs).length := by
  match segs, hne with
  | [s], _ => simp [flatS]
  | s :: s2 :: ss, _ => simp [flatS]

theorem p1Buf_nil (t f : Nat) : p1Buf t f [] = [] := by
  cases f <;> simp [p1Buf, flatS]

theorem keysAfter_nil (f i off : Nat) (keys : List (Option Nat)) :
    keysAfter f i off [] keys = keys := by
  cases f <;> simp [keysAfter]

theorem segmentPass_flat (t : Nat) (segs : List (List Nat)) (hne : segs ≠ [])
    (h38 : ∀ s ∈ segs, 38 ∉ s) (pre rest : List Nat) (endAt : Nat)
    (hend : endAt + 1 = pre.length + (flatS t segs).length) (f i : Nat)
    (result : keyValueDict_t) :
    segmentPass endAt (f + 1) i pre.length (pre ++ (flatS t segs ++ rest)) result =
      ({ result with
          keys := keysAfter (f + 1) i pre.length segs result.keys,
          count := i + min (f + 1) segs.length - 1 },
        pre ++ (p1Buf t (f + 1) segs ++ rest)) := by
  induction segs generalizing pre f i result with
  | nil => exact absurd rfl hne
  | cons s ss ih =>
    have hs : 38 ∉ s := h38 s (by simp)
    cases ss with
    | nil =>
      have he : endAt = pre.length + s.length := by
        simp [flatS] at hend; omega
      have hm : memchr (pre ++ (flatS t [s] ++ rest)) pre.length 38 (endAt - pre.length)
          = none := by
        rw [memchr_append, he]
        have : flatS t [s] ++ rest = s ++ (t :: rest) := by simp [flatS]
        rw [this]
        exact memchrFrom_none s _ 38 _ _ hs (by omega)
      rw [segmentPass]
      simp only [hm, Option.getD_none, if_true]
      have hb : (pre ++ (flatS t [s] ++ rest)).set endAt 0 = pre ++ (p1Buf t (f + 1) [s] ++ rest) := by
        have h1 : flatS t [s] ++ rest = s ++ (t :: rest) := by simp [flatS]
        have h2 : p1Buf t (f + 1) [s] ++ rest = s ++ (0 :: rest) := by simp [p1Buf, p1Buf_nil]
        rw [h1, h2, he]
        exact set_append_mid pre s rest t 0
      rw [hb]
      simp [keysAfter, keysAfter_nil]
    | cons s2 ss2 =>
      have hpos := flatS_length_pos t (s2 :: ss2) (by simp)
      have hfl : flatS t (s :: s2 :: ss2) = s ++ 38 :: flatS t (s2 :: ss2) := by simp [flatS]
      have he : endAt = pre.length + s.length + (flatS t (s2 :: ss2)).length := by
        rw [hfl] at hend; simp at hend; omega
      have hm : memchr (pre ++ (flatS t (s :: s2 :: ss2) ++ rest)) pre.length 38
          (endAt - pre.length) = some (pre.length + s.length) := by
        rw [memchr_append, hfl]
        have : s ++ 38 :: flatS t (s2 :: ss2) ++ rest = s ++ 38 :: (flatS t (s2 :: ss2) ++ rest) := by
          simp
        rw [this]
        exact memchrFrom_found s _ 38 _ _ hs (by omega)
      rw [segmentPass]
      simp only [hm, Option.getD_some]
      have hne2 : ¬ (pre.length + s.length = endAt) := by omega
      rw [if_neg hne2]
      have hb : (pre ++ (flatS t (s :: s2 :: ss2) ++ rest)).set (pre.length + s.length) 0 =
          (pre ++ (s ++ [0])) ++ (flatS t (s2 :: ss2) ++ rest) := by
        have h1 : flatS t (s :: s2 :: ss2) ++ rest = s ++ 38 :: (flatS t (s2 :: ss2) ++ rest) := by
          rw [hfl]; simp
        rw [h1, set_append_mid]
        simp
      rw [hb]
      have hl : pre.length + s.length + 1 = (pre ++ (s ++ [0])).length := by simp; omega
      cases f with
      | zero =>
        simp [segmentPass, keysAfter, p1Buf]
      | succ f =>
        rw [hl, ih (by simp) (fun x hx => h38 x (by simp [hx])) (pre ++ (s ++ [0]))
          (by simp; omega) f (i + 1)]
        simp only [keysAfter, p1Buf, List.length_cons, List.length_append, List.length_nil,
          List.append_assoc, List.cons_append, List.nil_append]
        congr 2
        omega

/-! ## The second loop on a buffer of `k=v` segments -/

theorem flatS_length_cons (t : Nat) (s : List Nat) (ss : List (List Nat)) :
    (flatS t (s :: ss)).length = s.length + 1 + (flatS t ss).length := by
  cases ss with
  | nil => simp [flatS]
  | cons s2 ss2 => simp [flatS]; omega

theorem splitPass_flat (t : Nat) (m : Nat) (ps : List (List Nat × List Nat))
    (hm : m ≤ ps.length) (h61 : ∀ kv ∈ ps, 61 ∉ kv.1) (pre rest : List Nat) (endAt : Nat)
    (hend : endAt + 1 = pre.length + (flatS t (ps.map seg)).length) (i : Nat)
    (result : keyValueDict_t)
    (hkeys : ∀ j < m, result.keys.getD (i + j) none = some (pre.length + keyOff ps j)) :
    splitPass endAt m i (pre ++ (p1Buf t m (ps.map seg) ++ rest)) result =
      ({ result with values := valuesAfter m i pre.length ps result.values },
        pre ++ (p2Buf t m ps ++ rest)) := by
  induction m generalizing ps pre i result with
  | zero => simp [splitPass, p1Buf, p2Buf, valuesAfter]
  | succ m ih =>
    cases ps with
    | nil => simp at hm
    | cons kv ps =>
      have hk : 61 ∉ kv.1 := h61 kv (by simp)
      have hk0 : result.keys.getD i none = some pre.length := by
        have := hkeys 0 (by omega)
        simpa [keyOff] using this
      have hlen := flatS_length_cons t (seg kv) (ps.map seg)
      have hseg : (seg kv).length = kv.1.length + 1 + kv.2.length := by simp [seg]; omega
      have hbuf : pre ++ (p1Buf t (m + 1) ((kv :: ps).map seg) ++ rest) =
          pre ++ (kv.1 ++ 61 :: (kv.2 ++ 0 :: (p1Buf t m (ps.map seg) ++ rest))) := by
        simp [p1Buf, seg]
      have hmc : memchr (pre ++ (p1Buf t (m + 1) ((kv :: ps).map seg) ++ rest)) pre.length 61
          (endAt - pre.length) = some (pre.length + kv.1.length) := by
        rw [hbuf, memchr_append]
        apply memchrFrom_found _ _ _ _ _ hk
        simp only [List.map_cons] at hend
        omega
      rw [splitPass]
      simp only [hk0, Option.some_bind, hmc]
      rw [hbuf, set_append_mid]
      have hb2 : pre ++ (kv.1 ++ 0 :: (kv.2 ++ 0 :: (p1Buf t m (ps.map seg) ++ rest))) =
          (pre ++ (kv.1 ++ 0 :: (kv.2 ++ [0]))) ++ (p1Buf t m (ps.map seg) ++ rest) := by
        simp
      have hl : (pre ++ (kv.1 ++ 0 :: (kv.2 ++ [0]))).length =
          pre.length + kv.1.length + 1 + kv.2.length + 1 := by
        simp; omega
      rw [hb2, ih ps (by simpa using hm) (fun x hx => h61 x (by simp [hx]))
        (pre ++ (kv.1 ++ 0 :: (kv.2 ++ [0])))
        (by simp only [List.map_cons] at hend; omega) (i + 1)]
      · simp only [valuesAfter, p2Buf, hl, List.append_assoc, List.cons_append,
          List.nil_append]
      · intro j hj
        have := hkeys (j + 1) (by omega)
        simp only [keyOff] at this
        rw [hl]
        rw [show i + 1 + j = i + (j + 1) by omega, this]
        congr 1
        omega

/-! ## The slots and the layout after both loops -/

theorem keysAfter_getD_lt (f i off : Nat) (segs : List (List Nat)) (keys : List (Option Nat))
    (l : Nat) (hl : l < i) :
    (keysAfter f i off segs keys).getD l none = keys.getD l none := by
  induction f generalizing i off segs keys with
  | zero => simp [keysAfter]
  | succ f ih =>
    cases segs with
    | nil => simp [keysAfter]
    | cons s ss =>
      rw [keysAfter, ih (i + 1) _ ss _ (by omega)]
      simp only [List.getD_eq_getElem?_getD]
      rw [List.getElem?_set_ne (by omega)]

theorem keysAfter_getD (f i off : Nat) (ps : List (List Nat × List Nat))
    (keys : List (Option Nat)) (j : Nat) (hjf : j < f) (hjn : j < ps.length)
    (hlen : i + j < keys.length) :
    (keysAfter f i off (ps.map seg) keys).getD (i + j) none = some (off + keyOff ps j) := by
  induction f generalizing i off ps keys j with
  | zero => omega
  | succ f ih =>
    cases ps with
    | nil => simp at hjn
    | cons kv ps =>
      simp only [List.map_cons, keysAfter]
      cases j with
      | zero =>
        simp only [Nat.add_zero] at hlen ⊢
        rw [keysAfter_getD_lt _ _ _ _ _ _ (by omega)]
        simp only [List.getD_eq_getElem?_getD]
        rw [List.getElem?_set_self (by omega)]
        simp [keyOff]
      | succ j =>
        have := ih (i + 1) (off + (seg kv).length + 1) ps (keys.set i (some off)) j
          (by omega) (by simpa using hjn) (by simp; omega)
        rw [show i + (j + 1) = i + 1 + j by omega, this]
        simp only [keyOff, seg, List.length_append, List.length_cons]
        congr 1
        omega

theorem valuesAfter_getD_lt (m i off : Nat) (ps : List (List Nat × List Nat))
    (vals : List (Option Nat)) (l : Nat) (hl : l < i) :
    (valuesAfter m i off ps vals).getD l none = vals.getD l none := by
  induction m generalizing i off ps vals with
  | zero => simp [valuesAfter]
  | succ m ih =>
    cases ps with
    | nil => simp [valuesAfter]
    | cons kv ps =>
      rw [valuesAfter, ih (i + 1) _ ps _ (by omega)]
      simp only [List.getD_eq_getElem?_getD]
      rw [List.getElem?_set_ne (by omega)]

theorem valuesAfter_getD (m i off : Nat) (ps : List (List Nat × List Nat))
    (vals : List (Option Nat)) (j : Nat) (kv : List Nat × List Nat) (hjm : j < m)
    (hj : ps[j]? = some kv) (hlen : i + j < vals.length) :
    (valuesAfter m i off ps vals).getD (i + j) none =
      some (off + keyOff ps j + kv.1.length + 1) := by
  induction m generalizing i off ps vals j with
  | zero => omega
  | succ m ih =>
    cases ps with
    | nil => simp at hj
    | cons kv0 ps =>
      simp only [valuesAfter]
      cases j with
      | zero =>
        simp only [List.getElem?_cons_zero, Option.some.injEq] at hj
        subst hj
        simp only [Nat.add_zero] at hlen ⊢
        rw [valuesAfter_getD_lt _ _ _ _ _ _ (by omega)]
        simp only [List.getD_eq_getElem?_getD]
        rw [List.getElem?_set_self (by omega)]
        simp [keyOff]
      | succ j =>
        have := ih (i + 1) (off + kv0.1.length + 1 + kv0.2.length + 1) ps
          (vals.set i (some (off + kv0.1.length + 1))) j (by omega)
          (by simpa using hj) (by simp; omega)
        rw [show i + (j + 1) = i + 1 + j by omega, this]
        simp only [keyOff]
        congr 1
        omega

theorem p2Buf_split (t m : Nat) (ps : List (List Nat × List Nat)) (j : Nat)
    (kv : List Nat × List Nat) (hjm : j < m) (hj : ps[j]? = some kv) :
    ∃ A B, p2Buf t m ps = A ++ (kv.1 ++ 0 :: (kv.2 ++ 0 :: B)) ∧ A.length = keyOff ps j := by
  induction m generalizing ps j with
  | zero => omega
  | succ m ih =>
    cases ps with
    | nil => simp at hj
    | cons kv0 ps =>
      cases j with
      | zero =>
        simp only [List.getElem?_cons_zero, Option.some.injEq] at hj
        subst hj
        exact ⟨[], p2Buf t m ps, by simp [p2Buf], by simp [keyOff]⟩
      | succ j =>
        obtain ⟨A, B, hAB, hA⟩ := ih ps j (by omega) (by simpa using hj)
        refine ⟨kv0.1 ++ 0 :: (kv0.2 ++ 0 :: A), B, ?_, ?_⟩
        · simp [p2Buf, hAB]
        · simp [keyOff, hA]; omega

theorem p1Buf_min (t f : Nat) (segs : List (List Nat)) :
    p1Buf t f segs = p1Buf t (min f segs.length) segs := by
  induction f generalizing segs with
  | zero => simp
  | succ f ih =>
    cases segs with
    | nil => simp [p1Buf_nil]
    | cons s ss =>
      rw [List.length_cons, Nat.succ_min_succ, p1Buf, p1Buf, ← ih]

theorem joinPairs_flatS (t : Nat) (ps : List (List Nat × List Nat)) (hne : ps ≠ [])
    (rest : List Nat) : joinPairs ps ++ t :: rest = flatS t (ps.map seg) ++ rest := by
  induction ps with
  | nil => exact absurd rfl hne
  | cons kv ps ih =>
    cases ps with
    | nil => simp [joinPairs, flatS, seg]
    | cons kv2 ps2 =>
      have := ih (by simp)
      simp only [joinPairs, List.map_cons, flatS, seg, List.append_assoc, List.cons_append]
        at this ⊢
      rw [this]

theorem joinPairs_length (t : Nat) (ps : List (List Nat × List Nat)) (hne : ps ≠ []) :
    (joinPairs ps).length + 1 = (flatS t (ps.map seg)).length := by
  have := congrArg List.length (joinPairs_flatS t ps hne [])
  simpa using this

/-! ## The builder on a well-formed query string -/

theorem build_eq (maxCnt : Nat) (hmax : 0 < maxCnt) (ps : List (List Nat × List Nat))
    (hne : ps ≠ []) (h61 : ∀ kv ∈ ps, 61 ∉ kv.1) (h38 : ∀ kv ∈ ps, 38 ∉ kv.1 ∧ 38 ∉ kv.2)
    (t : Nat) (rest : List Nat) :
    lq_createQryStrDictionary maxCnt (joinPairs ps ++ t :: rest) (joinPairs ps).length =
      ({ count := min maxCnt ps.length,
         length := (joinPairs ps).length,
         keys := keysAfter maxCnt 0 0 (ps.map seg) (List.replicate maxCnt none),
         values := valuesAfter (min maxCnt ps.length) 0 0 ps (List.replicate maxCnt none) },
        p2Buf t (min maxCnt ps.length) ps ++ rest) := by
  obtain ⟨f, rfl⟩ : ∃ f, maxCnt = f + 1 := ⟨maxCnt - 1, by omega⟩
  have hlen := joinPairs_length t ps hne
  have hn : 0 < ps.length := List.length_pos.mpr hne
  have hq : (joinPairs ps).length ≠ 0 := by
    cases ps with
    | nil => exact absurd rfl hne
    | cons kv ps =>
      rw [List.map_cons, flatS_length_cons] at hlen
      simp only [seg, List.length_append, List.length_cons] at hlen
      omega
  have hsegs : ∀ s ∈ ps.map seg, 38 ∉ s := by
    intro s hs
    obtain ⟨kv, hkv, rfl⟩ := List.mem_map.mp hs
    have := h38 kv hkv
    simp only [seg, List.mem_append, List.mem_cons, not_or]
    exact ⟨this.1, by decide, this.2⟩
  have h1 := segmentPass_flat t (ps.map seg) (by simpa using hne) hsegs [] rest
    (joinPairs ps).length (by simpa using hlen) f 0
    { keyValueDict_t.zero (f + 1) with length := (joinPairs ps).length }
  simp only [List.nil_append, List.length_nil, List.length_map, keyValueDict_t.zero] at h1
  have hc : min (f + 1) ps.length - 1 + 1 = min (f + 1) ps.length := by omega
  have h2 := splitPass_flat t (min (f + 1) ps.length) ps (Nat.min_le_right _ _) h61 [] rest
    (joinPairs ps).length (by simpa using hlen) 0
    { count := min (f + 1) ps.length, length := (joinPairs ps).length,
      keys := keysAfter (f + 1) 0 0 (ps.map seg) (List.replicate (f + 1) none),
      values := List.replicate (f + 1) none }
    (by
      intro j hj
      have := keysAfter_getD (f + 1) 0 0 ps (List.replicate (f + 1) none) j
        (by omega) (by omega) (by simp; omega)
      simpa using this)
  simp only [List.nil_append, List.length_nil] at h2
  have hp := p1Buf_min t (f + 1) (ps.map seg)
  rw [List.length_map] at hp
  rw [← hp] at h2
  rw [lq_createQryStrDictionary, if_neg hq]
  simp only [Nat.zero_add, joinPairs_flatS t ps hne rest, h1, hc, keyValueDict_t.zero]
  rw [h2]

theorem build_view (maxCnt : Nat) (hmax : 0 < maxCnt) (ps : List (List Nat × List Nat))
    (h61 : ∀ kv ∈ ps, 61 ∉ kv.1) (h38 : ∀ kv ∈ ps, 38 ∉ kv.1 ∧ 38 ∉ kv.2)
    (t : Nat) (rest : List Nat) (j : Nat) (kv : List Nat × List Nat)
    (hj : j < min maxCnt ps.length) (hkv : ps[j]? = some kv) :
    ∃ A B,
      (lq_createQryStrDictionary maxCnt (joinPairs ps ++ t :: rest) (joinPairs ps).length).2 =
        A ++ (kv.1 ++ 0 :: (kv.2 ++ 0 :: B)) ∧
      (lq_createQryStrDictionary maxCnt (joinPairs ps ++ t :: rest)
        (joinPairs ps).length).1.keys.getD j none = some A.length ∧
      (lq_createQryStrDictionary maxCnt (joinPairs ps ++ t :: rest)
        (joinPairs ps).length).1.values.getD j none = some (A.length + kv.1.length + 1) := by
  have hne : ps ≠ [] := by
    intro h; subst h; simp at hj
  rw [build_eq maxCnt hmax ps hne h61 h38 t rest]
  obtain ⟨A, B, hAB, hA⟩ := p2Buf_split t (min maxCnt ps.length) ps j kv hj hkv
  refine ⟨A, B ++ rest, ?_, ?_, ?_⟩
  · simp [hAB]
  · have := keysAfter_getD maxCnt 0 0 ps (List.replicate maxCnt none) j
      (by omega) (by omega) (by simp; omega)
    simpa [hA] using this
  · have := valuesAfter_getD (min maxCnt ps.length) 0 0 ps (List.replicate maxCnt none) j kv
      hj hkv (by simp; omega)
    simpa [hA] using this

/-! ## The lookup loop -/

theorem lookupLoop_found (key : List Nat) (dict : keyValueDict_t) (src value : List Nat)
    (n i vi : Nat) (fuel start : Nat) (hs : start ≤ i) (hf : i < start + fuel)
    (hbefore : ∀ l, start ≤ l → l < i →
      ∃ kl, dict.keys.getD l none = some kl ∧ cstrAt src kl ≠ cstr key)
    (hat : ∃ ki, dict.keys.getD i none = some ki ∧ cstrAt src ki = cstr key)
    (hval : dict.values.getD i none = some vi) :
    lookupLoop key dict src value n fuel start = some (strncpy value (cstrAt src vi) n) := by
  induction fuel generalizing start with
  | zero => omega
  | succ fuel ih =>
    rw [lookupLoop]
    by_cases hsi : start = i
    · subst hsi
      obtain ⟨ki, hki, hkeq⟩ := hat
      simp only [hki, hkeq, if_true, hval]
    · obtain ⟨kl, hkl, hkne⟩ := hbefore start (le_refl _) (by omega)
      simp only [hkl, hkne, if_false]
      exact ih (start + 1) (by omega) (by omega) (fun l h1 h2 => hbefore l (by omega) h2)

theorem cstr_of_not_mem (k : List Nat) (hk : 0 ∉ k) : cstr k = k := by
  have := cstr_append_nul k [] hk
  induction k with
  | nil => simp [cstr]
  | cons b bs ih =>
    have hb : (b != 0) = true := by
      have : b ≠ 0 := fun h => hk (by simp [h])
      simpa using this
    have hbs : 0 ∉ bs := fun h => hk (by simp [h])
    have h2 := ih hbs (cstr_append_nul bs [] hbs)
    simp only [cstr] at h2 ⊢
    rw [List.takeWhile_cons, hb]
    simp [h2]

theorem cstrAt_value (A k v B : List Nat) (hv : 0 ∉ v) :
    cstrAt (A ++ (k ++ 0 :: (v ++ 0 :: B))) (A.length + k.length + 1) = v := by
  have h : A ++ (k ++ 0 :: (v ++ 0 :: B)) = (A ++ (k ++ [0])) ++ (v ++ 0 :: B) := by simp
  have hl : A.length + k.length + 1 = (A ++ (k ++ [0])).length := by simp; omega
  rw [h, hl]
  exact cstrAt_append_nul _ v B hv

/-! ## Claims on the query-string dictionary -/

/-- C1: round trip of `lq_createQryStrDictionary` followed by
`lq_getQryStrDictionaryValue`. For a query string `k1=v1&...&kn=vn` with
`1 ≤ n ≤ maxCnt`, keys non-empty, pairwise distinct and free of `=`, `&` and NUL,
values free of `&` and NUL, for every `i` and every output capacity `valSz`
(a `uint8_t`, at least 1, the size of `out`) with `length v_i ≤ valSz - 1`, looking
up `k_i` in the built dictionary returns an output buffer whose first
`length v_i` bytes are `v_i`. -/
theorem createQryStrDictionary_getValue_roundTrip (maxCnt : Nat)
    (ps : List (List Nat × List Nat)) (hn1 : 1 ≤ ps.length) (hn : ps.length ≤ maxCnt)
    (hkey : ∀ kv ∈ ps, kv.1 ≠ [] ∧ 61 ∉ kv.1 ∧ 38 ∉ kv.1 ∧ 0 ∉ kv.1)
    (hvalue : ∀ kv ∈ ps, 38 ∉ kv.2 ∧ 0 ∉ kv.2)
    (hdist : (ps.map Prod.fst).Nodup)
    (t : Nat) (rest : List Nat) (i : Nat) (kv : List Nat × List Nat)
    (hi : ps[i]? = some kv) (out : List Nat) (valSz : Nat) (hcap1 : 1 ≤ valSz)
    (hcap8 : valSz < 256) (hout : valSz ≤ out.length) (hfit : kv.2.length ≤ valSz - 1) :
    ∃ out2,
      lq_getQryStrDictionaryValue kv.1
        (lq_createQryStrDictionary maxCnt (joinPairs ps ++ t :: rest) (joinPairs ps).length).1
        (lq_createQryStrDictionary maxCnt (joinPairs ps ++ t :: rest) (joinPairs ps).length).2
        out valSz = some out2 ∧
      out2.take kv.2.length = kv.2 ∧ out2.length = out.length := by
  have hmax : 0 < maxCnt := by omega
  have h61 : ∀ kv ∈ ps, 61 ∉ kv.1 := fun x hx => (hkey x hx).2.1
  have h38 : ∀ kv ∈ ps, 38 ∉ kv.1 ∧ 38 ∉ kv.2 := fun x hx => ⟨(hkey x hx).2.2.1, (hvalue x hx).1⟩
  have hilt : i < ps.length := by
    by_contra h
    rw [List.getElem?_eq_none (by omega)] at hi
    exact absurd hi (by simp)
  have hmem : kv ∈ ps := List.getElem?_mem hi
  have hmin : min maxCnt ps.length = ps.length := by omega
  have hview := fun j x (hj : j < ps.length) (hx : ps[j]? = some x) =>
    build_view maxCnt hmax ps h61 h38 t rest j x (by omega) hx
  have hcount : (lq_createQryStrDictionary maxCnt (joinPairs ps ++ t :: rest)
      (joinPairs ps).length).1.count = ps.length := by
    rw [build_eq maxCnt hmax ps (List.length_pos.mp (by omega)) h61 h38 t rest]
    exact hmin
  obtain ⟨kv0, hkv0⟩ : ∃ kv0, ps[0]? = some kv0 :=
    ⟨ps[0], List.getElem?_eq_getElem (by omega)⟩
  obtain ⟨A0, B0, hb0, hk0, _⟩ := hview 0 kv0 (by omega) hkv0
  obtain ⟨A, B, hb, hk, hv⟩ := hview i kv hilt hi
  have hkv0mem : kv0 ∈ ps := List.getElem?_mem hkv0
  have hguard : (lq_createQryStrDictionary maxCnt (joinPairs ps ++ t :: rest)
      (joinPairs ps).length).2.getD A0.length 0 ≠ 0 := by
    rw [hb0]
    obtain ⟨hne0, _, _, hz0⟩ := hkey kv0 hkv0mem
    cases hk1 : kv0.1 with
    | nil => exact absurd hk1 hne0
    | cons b bs =>
      rw [hk1] at hz0
      have hb : b ≠ 0 := fun h => hz0 (by simp [h])
      rw [List.getD_eq_getElem?_getD, List.getElem?_append_right (le_refl _)]
      simpa using hb
  have hloop := lookupLoop_found kv.1
    (lq_createQryStrDictionary maxCnt (joinPairs ps ++ t :: rest) (joinPairs ps).length).1
    (lq_createQryStrDictionary maxCnt (joinPairs ps ++ t :: rest) (joinPairs ps).length).2
    out (valSz - 1) i (A.length + kv.1.length + 1) ps.length 0 (by omega) (by omega)
    (by
      intro l _ hl
      obtain ⟨kvl, hkvl⟩ : ∃ kvl, ps[l]? = some kvl :=
        ⟨ps[l], List.getElem?_eq_getElem (by omega)⟩
      obtain ⟨Al, Bl, hbl, hkl, _⟩ := hview l kvl (by omega) hkvl
      refine ⟨Al.length, hkl, ?_⟩
      rw [hbl, cstrAt_append_nul _ _ _ (hkey kvl (List.getElem?_mem hkvl)).2.2.2,
        cstr_of_not_mem _ (hkey kv hmem).2.2.2]
      intro heq
      have h1 : (ps.map Prod.fst)[l]? = (ps.map Prod.fst)[i]? := by
        simp [List.getElem?_map, hkvl, hi, heq]
      have := List.getElem?_inj (by simp; omega) hdist h1
      omega)
    ⟨A.length, hk, by
      rw [hb, cstrAt_append_nul _ _ _ (hkey kv hmem).2.2.2,
        cstr_of_not_mem _ (hkey kv hmem).2.2.2]⟩
    hv
  refine ⟨strncpy out kv.2 (valSz - 1), ?_, ?_, ?_⟩
  · rw [lq_getQryStrDictionaryValue, hk0]
    simp only [hguard, if_false, hcount]
    have hm : valSz % 256 = valSz := Nat.mod_eq_of_lt hcap8
    rw [hm, if_neg (by omega), hloop, hb, cstrAt_value _ _ _ _ (hvalue kv hmem).2]
  · simp only [strncpy]
    rw [List.append_assoc, List.take_append_of_le_length (by simp; omega)]
    simp [List.take_take]
    omega
  · simp only [strncpy, List.length_append, List.length_take, List.length_replicate,
      List.length_drop]
    omega

/-- Witness of C1: `a=1&b=22` in a dictionary of 2 slots, key `b`, a 3-byte output. -/
theorem createQryStrDictionary_getValue_roundTrip_witness :
    ∃ out2,
      lq_getQryStrDictionaryValue [98]
        (lq_createQryStrDictionary 2 (joinPairs [([97], [49]), ([98], [50, 50])] ++ 7 :: [])
          (joinPairs [([97], [49]), ([98], [50, 50])]).length).1
        (lq_createQryStrDictionary 2 (joinPairs [([97], [49]), ([98], [50, 50])] ++ 7 :: [])
          (joinPairs [([97], [49]), ([98], [50, 50])]).length).2
        [9, 9, 9] 3 = some out2 ∧
      out2.take ([50, 50] : List Nat).length = [50, 50] ∧ out2.length = [9, 9, 9].length :=
  createQryStrDictionary_getValue_roundTrip 2 [([97], [49]), ([98], [50, 50])]
    (by decide) (by decide) (by decide) (by decide) (by decide) 7 [] 1 ([98], [50, 50])
    (by decide) [9, 9, 9] 3 (by decide) (by decide) (by decide) (by decide)

/-- C2: postcondition of `lq_createQryStrDictionary` on well-formed input. For
the query string of `n ≥ 0` pairs `k_i=v_i` joined by `&` (keys free of `=`, `&`,
NUL; values free of `&`, NUL; the empty input has length 0), in a dictionary with
`maxCnt ≥ 1` slots, the result has `count = min n maxCnt`, and for every
`i < count` the `i`-th key view reads as `k_i` and the `i`-th value view as `v_i`. -/
theorem createQryStrDictionary_wellFormed (maxCnt : Nat) (hmax : 0 < maxCnt)
    (ps : List (List Nat × List Nat))
    (hkey : ∀ kv ∈ ps, 61 ∉ kv.1 ∧ 38 ∉ kv.1 ∧ 0 ∉ kv.1)
    (hvalue : ∀ kv ∈ ps, 38 ∉ kv.2 ∧ 0 ∉ kv.2) (t : Nat) (rest : List Nat) :
    (lq_createQryStrDictionary maxCnt (joinPairs ps ++ t :: rest)
        (joinPairs ps).length).1.count = min ps.length maxCnt ∧
    ∀ i kv, i < min ps.length maxCnt → ps[i]? = some kv →
      ∃ kp vp,
        (lq_createQryStrDictionary maxCnt (joinPairs ps ++ t :: rest)
          (joinPairs ps).length).1.keys.getD i none = some kp ∧
        (lq_createQryStrDictionary maxCnt (joinPairs ps ++ t :: rest)
          (joinPairs ps).length).1.values.getD i none = some vp ∧
        cstrAt (lq_createQryStrDictionary maxCnt (joinPairs ps ++ t :: rest)
          (joinPairs ps).length).2 kp = kv.1 ∧
        cstrAt (lq_createQryStrDictionary maxCnt (joinPairs ps ++ t :: rest)
          (joinPairs ps).length).2 vp = kv.2 := by
  have h61 : ∀ kv ∈ ps, 61 ∉ kv.1 := fun x hx => (hkey x hx).1
  have h38 : ∀ kv ∈ ps, 38 ∉ kv.1 ∧ 38 ∉ kv.2 := fun x hx => ⟨(hkey x hx).2.1, (hvalue x hx).1⟩
  constructor
  · cases ps with
    | nil => simp [joinPairs, lq_createQryStrDictionary, keyValueDict_t.zero]
    | cons kv ps =>
      rw [build_eq maxCnt hmax (kv :: ps) (by simp) h61 h38 t rest]
      exact Nat.min_comm _ _
  · intro i kv hi hkv
    have hmem : kv ∈ ps := List.getElem?_mem hkv
    obtain ⟨A, B, hb, hk, hv⟩ :=
      build_view maxCnt hmax ps h61 h38 t rest i kv (by omega) hkv
    refine ⟨A.length, A.length + kv.1.length + 1, hk, hv, ?_, ?_⟩
    · rw [hb]
      exact cstrAt_append_nul _ _ _ (hkey kv hmem).2.2
    · rw [hb]
      exact cstrAt_value _ _ _ _ (hvalue kv hmem).2

/-- Witness of C2: `a=1&b=2&c=3` in a dictionary of 2 slots is truncated to 2 pairs. -/
theorem createQryStrDictionary_wellFormed_witness :
    (0 < 2) ∧
    (lq_createQryStrDictionary 2
        (joinPairs [([97], [49]), ([98], [50]), ([99], [51])] ++ 0 :: [])
        (joinPairs [([97], [49]), ([98], [50]), ([99], [51])]).length).1.count = 2 :=
  ⟨by decide,
    (createQryStrDictionary_wellFormed 2 (by decide) [([97], [49]), ([98], [50]), ([99], [51])]
      (by decide) (by decide) 0 []).1⟩

/-- C3: the input `a&b=1` (length 5) in a dictionary of 15 slots. The first
segment has no `=`, yet the scan of the second loop runs on to the `=` of the
second segment: the result keeps one pair, key `a` with value `1`, instead of none. -/
theorem createQryStrDictionary_missingEq_firstSegment :
    (lq_createQryStrDictionary 15 [97, 38, 98, 61, 49, 0] 5).1.count = 1 ∧
    (lq_createQryStrDictionary 15 [97, 38, 98, 61, 49, 0] 5).1.keys.getD 0 none = some 0 ∧
    (lq_createQryStrDictionary 15 [97, 38, 98, 61, 49, 0] 5).1.values.getD 0 none = some 4 ∧
    (lq_createQryStrDictionary 15 [97, 38, 98, 61, 49, 0] 5).2 = [97, 0, 98, 0, 49, 0] ∧
    cstrAt (lq_createQryStrDictionary 15 [97, 38, 98, 61, 49, 0] 5).2 0 = [97] ∧
    cstrAt (lq_createQryStrDictionary 15 [97, 38, 98, 61, 49, 0] 5).2 4 = [49] := by
  decide

theorem cstr_not_mem (s : List Nat) : 0 ∉ cstr s := by
  intro h
  have := List.mem_takeWhile_imp h
  simp at this

theorem getValue_found (key : List Nat) (dict : keyValueDict_t) (src out : List Nat)
    (valSz i vi k0 : Nat) (hcap1 : 1 ≤ valSz) (hcap8 : valSz < 256)
    (hfirst : dict.keys.getD 0 none = some k0) (hnonempty : src.getD k0 0 ≠ 0)
    (hi : i < dict.count)
    (hbefore : ∀ l < i, ∃ kl, dict.keys.getD l none = some kl ∧ cstrAt src kl ≠ cstr key)
    (hat : ∃ ki, dict.keys.getD i none = some ki ∧ cstrAt src ki = cstr key)
    (hval : dict.values.getD i none = some vi) :
    lq_getQryStrDictionaryValue key dict src out valSz =
      some (strncpy out (cstrAt src vi) (valSz - 1)) := by
  rw [lq_getQryStrDictionaryValue, hfirst]
  simp only [hnonempty, if_false]
  have hm : valSz % 256 = valSz := Nat.mod_eq_of_lt hcap8
  rw [hm, if_neg (by omega)]
  exact lookupLoop_found key dict src out (valSz - 1) i vi dict.count 0 (by omega) (by omega)
    (fun l _ h => hbefore l h) hat hval

/-- C4 (amended): truncation and termination in `lq_getQryStrDictionaryValue`.
For a dictionary whose first key is neither `NULL` nor empty, a key whose first
match is entry `i`, and an output buffer of `valSz` bytes (`1 ≤ valSz ≤ 255`):
if the value is shorter than `valSz - 1` or the output byte at index
`valSz - 1` was NUL before the call, then after the lookup the bytes before the
first NUL of the output are the first `min (length value) (valSz - 1)` bytes of
the value, and that NUL is at an index below `valSz`. -/
theorem getQryStrDictionaryValue_terminated (key : List Nat) (dict : keyValueDict_t)
    (src out : List Nat) (valSz i vi k0 : Nat) (hcap1 : 1 ≤ valSz) (hcap8 : valSz < 256)
    (hout : valSz ≤ out.length)
    (hfirst : dict.keys.getD 0 none = some k0) (hnonempty : src.getD k0 0 ≠ 0)
    (hi : i < dict.count)
    (hbefore : ∀ l < i, ∃ kl, dict.keys.getD l none = some kl ∧ cstrAt src kl ≠ cstr key)
    (hat : ∃ ki, dict.keys.getD i none = some ki ∧ cstrAt src ki = cstr key)
    (hval : dict.values.getD i none = some vi)
    (hnul : (cstrAt src vi).length < valSz - 1 ∨ out.getD (valSz - 1) 1 = 0) :
    ∃ out2,
      lq_getQryStrDictionaryValue key dict src out valSz = some out2 ∧
      cstr out2 = (cstrAt src vi).take (min (cstrAt src vi).length (valSz - 1)) ∧
      (cstr out2).length < valSz ∧
      out2.getD (cstr out2).length 1 = 0 := by
  refine ⟨_, getValue_found key dict src out valSz i vi k0 hcap1 hcap8 hfirst hnonempty hi
    hbefore hat hval, ?_⟩
  have hv0 : 0 ∉ cstrAt src vi := cstr_not_mem _
  generalize cstrAt src vi = v at hv0 hnul ⊢
  have hshape : ∃ post, strncpy out v (valSz - 1) = v.take (valSz - 1) ++ 0 :: post := by
    by_cases hlt : v.length < valSz - 1
    · refine ⟨List.replicate (valSz - 1 - v.length - 1) 0 ++ out.drop (valSz - 1), ?_⟩
      simp only [strncpy, List.append_assoc]
      congr 1
      rw [← List.cons_append]
      congr 1
      rw [← List.replicate_succ]
      congr 1
      omega
    · have ho : out.getD (valSz - 1) 1 = 0 := by
        rcases hnul with h | h
        · exact absurd h hlt
        · exact h
      refine ⟨out.drop (valSz - 1 + 1), ?_⟩
      have hz : valSz - 1 - v.length = 0 := by omega
      simp only [strncpy, hz, List.replicate_zero, List.append_nil]
      congr 1
      have hlt2 : valSz - 1 < out.length := by omega
      rw [List.drop_eq_getElem_cons hlt2]
      congr 1
      rw [List.getD_eq_getElem?_getD, List.getElem?_eq_getElem hlt2] at ho
      simpa using ho
  obtain ⟨post, hpost⟩ := hshape
  have htk : 0 ∉ v.take (valSz - 1) := fun h => hv0 (List.mem_of_mem_take h)
  have hc : cstr (strncpy out v (valSz - 1)) = v.take (valSz - 1) := by
    rw [hpost]
    exact cstr_append_nul _ _ htk
  refine ⟨?_, ?_, ?_⟩
  · rw [hc]
    by_cases h : v.length ≤ valSz - 1
    · rw [Nat.min_eq_left h, List.take_of_length_le h, List.take_of_length_le (le_refl _)]
    · rw [Nat.min_eq_right (by omega)]
  · rw [hc, List.length_take]
    omega
  · rw [hc, hpost, List.getD_eq_getElem?_getD, List.getElem?_append_right (le_refl _)]
    simp

/-- Witness of C4 (amended): value `hello` of key `b`, second entry, copied into
a 3-byte output whose last byte is NUL. -/
theorem getQryStrDictionaryValue_terminated_witness :
    ∃ out2,
      lq_getQryStrDictionaryValue [98]
        { count := 2, length := 11, keys := [some 0, some 4], values := [some 2, some 6] }
        [97, 0, 49, 0, 98, 0, 104, 101, 108, 108, 111, 0] [9, 9, 0] 3 = some out2 ∧
      cstr out2 = (cstrAt [97, 0, 49, 0, 98, 0, 104, 101, 108, 108, 111, 0] 6).take
        (min (cstrAt [97, 0, 49, 0, 98, 0, 104, 101, 108, 108, 111, 0] 6).length (3 - 1)) ∧
      (cstr out2).length < 3 ∧
      out2.getD (cstr out2).length 1 = 0 :=
  getQryStrDictionaryValue_terminated [98]
    { count := 2, length := 11, keys := [some 0, some 4], values := [some 2, some 6] }
    [97, 0, 49, 0, 98, 0, 104, 101, 108, 108, 111, 0] [9, 9, 0] 3 1 6 0
    (by decide) (by decide) (by decide) (by decide) (by decide) (by decide)
    (fun l hl => by
      have : l = 0 := by omega
      subst this
      exact ⟨0, by decide, by decide⟩)
    ⟨4, by decide, by decide⟩ (by decide) (Or.inr (by decide))

/-- C4 as stated fails: (1) value `hello` copied with capacity 3 into an output
that held `9 9 9` stores `h e` and no NUL, so the output has no NUL below index
3; (2) in the dictionary built from `=1&b=2` the key `b` matches the second
entry, but the first key is empty and the lookup leaves the output as it was. -/
theorem getQryStrDictionaryValue_unterminated :
    (lq_getQryStrDictionaryValue [97]
        { count := 1, length := 7, keys := [some 0], values := [some 2] }
        [97, 0, 104, 101, 108, 108, 111, 0] [9, 9, 9] 3 = some [104, 101, 9] ∧
      0 ∉ [104, 101, 9]) ∧
    ((lq_createQryStrDictionary 2 [61, 49, 38, 98, 61, 50, 0] 6).1.count = 2 ∧
      cstrAt (lq_createQryStrDictionary 2 [61, 49, 38, 98, 61, 50, 0] 6).2 3 = [98] ∧
      (lq_createQryStrDictionary 2 [61, 49, 38, 98, 61, 50, 0] 6).1.keys.getD 1 none =
        some 3 ∧
      lq_getQryStrDictionaryValue [98]
        (lq_createQryStrDictionary 2 [61, 49, 38, 98, 61, 50, 0] 6).1
        (lq_createQryStrDictionary 2 [61, 49, 38, 98, 61, 50, 0] 6).2 [9, 9, 9] 3 =
        some [9, 9, 9]) := by
  decide

/-! ## Frame of the builder -/

theorem memchrFrom_some (l : List Nat) (c n off d : Nat)
    (h : memchrFrom l c n off = some d) : off ≤ d ∧ d < off + n ∧ l[d - off]? = some c := by
  induction l generalizing n off with
  | nil => simp [memchrFrom] at h
  | cons b bs ih =>
    cases n with
    | zero => simp [memchrFrom] at h
    | succ n =>
      rw [memchrFrom] at h
      by_cases hb : b = c
      · rw [if_pos hb] at h
        have : off = d := by simpa using h
        subst this
        simp [hb]
      · rw [if_neg hb] at h
        obtain ⟨h1, h2, h3⟩ := ih n (off + 1) h
        refine ⟨by omega, by omega, ?_⟩
        rw [show d - off = (d - (off + 1)) + 1 by omega]
        simpa using h3

theorem memchr_some (buf : List Nat) (s c n d : Nat) (h : memchr buf s c n = some d) :
    s ≤ d ∧ d < s + n ∧ buf[d]? = some c := by
  obtain ⟨h1, h2, h3⟩ := memchrFrom_some _ _ _ _ _ h
  refine ⟨h1, h2, ?_⟩
  rw [List.getElem?_drop] at h3
  rwa [show s + (d - s) = d by omega] at h3

theorem take_strlen (s : List Nat) : s.take (strlen s) = cstr s := by
  induction s with
  | nil => simp [strlen, cstr]
  | cons b bs ih =>
    simp only [strlen, cstr] at ih ⊢
    rw [List.takeWhile_cons]
    split
    · simp [ih]
    · simp

theorem propSearch_buffer (propName : List Nat) (h : strlen propName ≤ 39) :
    memcpyAt (List.replicate 40 0) 1 propName (strlen propName) =
      some (0 :: (cstr propName ++ List.replicate (39 - strlen propName) 0)) := by
  rw [memcpyAt, if_pos (by simp; omega), take_strlen]
  simp only [List.drop_replicate, List.take_replicate]
  congr 1
  have h1 : min 1 40 = 1 := by decide
  have h2 : 40 - (1 + strlen propName) = 39 - strlen propName := by omega
  rw [h1, h2]
  simp

theorem propSearch_of_le (propName : List Nat) (h : strlen propName ≤ 37) :
    propSearch propName = some (34 :: (cstr propName ++ [34])) := by
  have hm : strlen propName % 256 = strlen propName := Nat.mod_eq_of_lt (by omega)
  rw [propSearch]
  simp only [hm]
  rw [propSearch_buffer propName (by omega)]
  obtain ⟨k, hk⟩ : ∃ k, 39 - strlen propName = k + 2 := ⟨37 - strlen propName, by omega⟩
  have hlen : (cstr propName).length = strlen propName := rfl
  have hs1 : storeAt (0 :: (cstr propName ++ List.replicate (39 - strlen propName) 0)) 0 34 =
      some (34 :: (cstr propName ++ List.replicate (39 - strlen propName) 0)) := by
    simp [storeAt]
  have hs2 : storeAt (34 :: (cstr propName ++ List.replicate (39 - strlen propName) 0))
      (strlen propName + 1) 34 =
      some ((34 :: (cstr propName ++ [34])) ++ 0 :: List.replicate k 0) := by
    rw [storeAt, if_pos (by simp; omega), hk]
    congr 1
    rw [List.set_cons_succ, ← hlen, ← Nat.add_zero (cstr propName).length]
    have := set_append_mid [] (cstr propName) (List.replicate (k + 1) 0) 0 34
    simp only [List.nil_append, List.length_nil, Nat.zero_add] at this
    simp only [List.replicate_succ, Nat.add_zero] at this ⊢
    rw [this]
    simp
  simp only [Option.some_bind, hs1, hs2]
  rw [cstrIn, if_pos (by simp)]
  congr 1
  apply cstr_append_nul
  have := cstr_not_mem propName
  simp only [List.mem_cons, List.mem_append, List.mem_singleton, not_or]
  exact ⟨by decide, this, by decide⟩

theorem propSearch_of_ge (propName : List Nat) (h1 : 38 ≤ strlen propName)
    (h2 : strlen propName < 256) : propSearch propName = none := by
  have hm : strlen propName % 256 = strlen propName := Nat.mod_eq_of_lt h2
  rw [propSearch]
  simp only [hm]
  by_cases h40 : strlen propName ≤ 39
  · rw [propSearch_buffer propName h40]
    have hlen : (cstr propName).length = strlen propName := rfl
    have hs1 : storeAt (0 :: (cstr propName ++ List.replicate (39 - strlen propName) 0)) 0 34 =
        some (34 :: (cstr propName ++ List.replicate (39 - strlen propName) 0)) := by
      simp [storeAt]
    simp only [Option.some_bind, hs1]
    by_cases h38 : strlen propName = 38
    · have hs2 : storeAt (34 :: (cstr propName ++ List.replicate (39 - strlen propName) 0))
          (strlen propName + 1) 34 = some (34 :: (cstr propName ++ [34])) := by
        rw [storeAt, if_pos (by simp; omega), h38]
        congr 1
        rw [List.set_cons_succ]
        have := set_append_mid [] (cstr propName) [] 0 34
        simp only [List.nil_append, List.length_nil, Nat.zero_add, hlen, h38] at this
        simpa using this
      simp only [hs2, Option.some_bind]
      rw [cstrIn, if_neg]
      have := cstr_not_mem propName
      simp only [List.mem_cons, List.mem_append, List.mem_singleton, not_or]
      exact ⟨by decide, this, by decide⟩
    · have hs2 : storeAt (34 :: (cstr propName ++ List.replicate (39 - strlen propName) 0))
          (strlen propName + 1) 34 = none := by
        rw [storeAt, if_neg (by simp; omega)]
      simp only [hs2, Option.none_bind]
  · rw [memcpyAt, if_neg (by simp; omega)]
    rfl

/-- C7 (amended): size limit of the pattern array of `lq_getJsonPropValue`. For a
property name of at most 37 bytes the quoted pattern (quote, name, quote) lies
in the 40-byte array as a NUL-terminated string and is what `strstr` searches
for. For a name of 38 to 255 bytes a store or the read of the pattern leaves the
array (a 38-byte name fills all 40 bytes and leaves no room for the NUL). -/
theorem propSearch_sizeLimit (propName : List Nat) :
    (strlen propName ≤ 37 → propSearch propName = some (34 :: (cstr propName ++ [34]))) ∧
    (38 ≤ strlen propName → strlen propName < 256 → propSearch propName = none) :=
  ⟨propSearch_of_le propName, propSearch_of_ge propName⟩

/-- Witness of C7 (amended): the names `temperature` (11 bytes) and a 38-byte
name. -/
theorem propSearch_sizeLimit_witness :
    (strlen [116, 101, 109, 112, 101, 114, 97, 116, 117, 114, 101] ≤ 37 ∧
      propSearch [116, 101, 109, 112, 101, 114, 97, 116, 117, 114, 101] =
        some (34 :: (cstr [116, 101, 109, 112, 101, 114, 97, 116, 117, 114, 101] ++ [34]))) ∧
    (38 ≤ strlen (List.replicate 38 97) ∧ strlen (List.replicate 38 97) < 256 ∧
      propSearch (List.replicate 38 97) = none) :=
  ⟨⟨by decide,
      (propSearch_sizeLimit [116, 101, 109, 112, 101, 114, 97, 116, 117, 114, 101]).1
        (by decide)⟩,
    ⟨by decide, by decide,
      (propSearch_sizeLimit (List.replicate 38 97)).2 (by decide) (by decide)⟩⟩

/-- C7 as stated fails: a 38-byte name is within the stated limit, but its quoted
pattern takes all 40 bytes of the array, which then holds no NUL, so that the
search reads past the array and the call has no defined result. -/
theorem propSearch_38_overruns :
    strlen (List.replicate 38 97) = 38 ∧
    ((memcpyAt (List.replicate 40 0) 1 (List.replicate 38 97) 38).bind fun b1 =>
      (storeAt b1 0 34).bind fun b2 => storeAt b2 39 34) =
      some (34 :: (List.replicate 38 97 ++ [34])) ∧
    cstrIn (34 :: (List.replicate 38 97 ++ [34])) = none ∧
    propSearch (List.replicate 38 97) = none ∧
    lq_getJsonPropValue [123, 34, 120, 34, 58, 49, 125] (List.replicate 38 97) = none := by
  decide

/-! ## The locating steps of `lq_getJsonPropValue` -/

theorem strstrFrom_none (hay pat : List Nat) (off : Nat)
    (h : ∀ i, startsWith (hay.drop i) pat = false) : strstrFrom hay pat off = none := by
  induction hay generalizing off with
  | nil =>
    have := h 0
    simp only [List.drop_nil] at this
    simp [strstrFrom, this]
  | cons b bs ih =>
    have h0 := h 0
    simp only [List.drop_zero] at h0
    rw [strstrFrom, h0]
    simp only [Bool.false_eq_true, if_false]
    exact ih (off + 1) (fun i => by simpa using h (i + 1))

theorem memchrFrom_none_of_forall (l : List Nat) (c n off : Nat)
    (h : ∀ j, j < n → l.getD j 0 ≠ c) : memchrFrom l c n off = none := by
  induction l generalizing n off with
  | nil => simp [memchrFrom]
  | cons b bs ih =>
    cases n with
    | zero => simp [memchrFrom]
    | succ n =>
      have hb : b ≠ c := by simpa using h 0 (by omega)
      rw [memchrFrom, if_neg hb]
      apply ih
      intro j hj
      simpa using h (j + 1) (by omega)

theorem memchr_none_of_forall (buf : List Nat) (s c n : Nat)
    (h : ∀ j, s ≤ j → j < s + n → buf.getD j 0 ≠ c) : memchr buf s c n = none := by
  apply memchrFrom_none_of_forall
  intro j hj
  have := h (s + j) (by omega) (by omega)
  simpa [List.getD_eq_getElem?_getD, List.getElem?_drop] using this

theorem skipBlanks_none (json : List Nat) (jsonEnd fuel next : Nat) (hlt : next < jsonEnd)
    (hfuel : jsonEnd - next ≤ fuel)
    (h : ∀ j, next ≤ j → j < jsonEnd → json.getD j 0 = 32 ∨ json.getD j 0 = 9) :
    skipBlanks json jsonEnd fuel next = none := by
  induction fuel generalizing next with
  | zero => omega
  | succ fuel ih =>
    rw [skipBlanks, if_pos (h next (le_refl _) hlt)]
    by_cases hend : next + 1 ≥ jsonEnd
    · rw [if_pos hend]
    · rw [if_neg hend]
      exact ih (next + 1) (by omega) (by omega) (fun j h1 h2 => h j (by omega) h2)

theorem getJsonPropValue_classify (jsonSrc propName : List Nat) (p : Nat)
    (hname : strlen propName ≤ 37) (hfirst : CodeLocates jsonSrc propName p) :
    lq_getJsonPropValue jsonSrc propName = classify jsonSrc (strlen jsonSrc) p := by
  obtain ⟨m, c, hs, hmc, hsk⟩ := hfirst
  have hpat := propSearch_of_le propName hname
  have hm : strlen propName % 256 = strlen propName := Nat.mod_eq_of_lt (by omega)
  simp only [lq_getJsonPropValue, hpat, hs, hm, hmc, hsk]

/-! ## The block-length scanner -/

theorem blockScan_balanced (json : List Nat) (e o c p n : Nat) (hoc : o ≠ c)
    (hq : p + n ≤ e)
    (hpos : ∀ k, k < n → 0 < depthFrom json o c p k ∧ depthFrom json o c p k < 256)
    (hzero : depthFrom json o c p n = 0) (fuel k op : Nat) (hk : k ≤ n)
    (hop : (op : Int) = depthFrom json o c p k) (hfuel : n - k ≤ fuel) :
    blockScan json e o c fuel op (p + k) = p + n := by
  induction fuel generalizing k op with
  | zero =>
    have : k = n := by omega
    subst this
    rfl
  | succ fuel ih =>
    rw [blockScan]
    by_cases hkn : k = n
    · subst hkn
      have : op = 0 := by omega
      subst this
      simp
    · have hlt : k < n := by omega
      obtain ⟨h1, h2⟩ := hpos k hlt
      rw [if_pos ⟨by omega, by omega⟩]
      have hstep : depthFrom json o c p (k + 1) =
          depthFrom json o c p k + (if json.getD (p + k + 1) 0 = o then 1 else 0)
            - (if json.getD (p + k + 1) 0 = c then 1 else 0) := rfl
      have hnext : 0 ≤ depthFrom json o c p (k + 1) ∧ depthFrom json o c p (k + 1) < 256 := by
        by_cases hk1 : k + 1 = n
        · rw [hk1, hzero]; omega
        · have := hpos (k + 1) (by omega)
          omega
      apply ih (k + 1) _ (by omega) _ (by omega)
      rw [hstep] at hnext ⊢
      generalize json.getD (p + k + 1) 0 = b at hnext ⊢
      by_cases hbo : b = o
      · have hbc : b ≠ c := fun h => hoc (hbo.symm.trans h)
        simp only [if_pos hbo, if_neg hbc] at hnext ⊢
        omega
      · by_cases hbc : b = c
        · simp only [if_neg hbo, if_pos hbc] at hnext ⊢
          omega
        · simp only [if_neg hbo, if_neg hbc] at hnext ⊢
          omega

theorem findJsonBlockLength_balanced (json : List Nat) (e o c p n : Nat) (hoc : o ≠ c)
    (hq : p + n ≤ e)
    (hpos : ∀ k, k < n → 0 < depthFrom json o c p k ∧ depthFrom json o c p k < 256)
    (hzero : depthFrom json o c p n = 0) :
    findJsonBlockLength json p e o c = (n + 1) % 65536 := by
  have := blockScan_balanced json e o c p n hoc hq hpos hzero (e - p) 0 1 (by omega) rfl
    (by omega)
  rw [Nat.add_zero] at this
  rw [findJsonBlockLength, this]
  congr 1
  omega

/-! ### An object of 65536 bytes -/

theorem paddedBlock_fill (n k : Nat) (hk : k < n) : (paddedBlock n).getD (4 + k + 1) 0 = 32 := by
  rw [paddedBlock, List.getD_eq_getElem?_getD,
    List.getElem?_append_right (by simp only [List.length_cons, List.length_nil]; omega)]
  simp only [List.length_cons, List.length_nil]
  rw [show 4 + k + 1 - (0 + 1 + 1 + 1 + 1 + 1) = k by omega,
    List.getElem?_append_left (by simpa using hk), List.getElem?_replicate, if_pos hk]
  rfl

theorem paddedBlock_close (n : Nat) : (paddedBlock n).getD (4 + n + 1) 0 = 125 := by
  rw [paddedBlock, List.getD_eq_getElem?_getD,
    List.getElem?_append_right (by simp only [List.length_cons, List.length_nil]; omega)]
  simp only [List.length_cons, List.length_nil]
  rw [show 4 + n + 1 - (0 + 1 + 1 + 1 + 1 + 1) = n by omega,
    List.getElem?_append_right (by simp)]
  simp

theorem paddedBlock_cstr (n : Nat) : cstr (paddedBlock n) = paddedBlock n := by
  apply cstr_of_not_mem
  simp only [paddedBlock, List.mem_append, List.mem_cons, List.mem_replicate,
    List.mem_singleton, not_or]
  simp

theorem paddedBlock_strlen (n : Nat) : strlen (paddedBlock n) = n + 6 := by
  rw [strlen, paddedBlock_cstr]
  simp only [paddedBlock, List.length_append, List.length_cons, List.length_nil,
    List.length_replicate]
  omega

theorem paddedBlock_depth (n k : Nat) (hk : k ≤ n) : depthFrom (paddedBlock n) 123 125 4 k = 1 := by
  induction k with
  | zero => rfl
  | succ k ih =>
    rw [depthFrom, ih (by omega), paddedBlock_fill n k (by omega)]
    decide

theorem paddedBlock_locates (n : Nat) : CodeLocates (paddedBlock n) [120] 4 := by
  refine ⟨0, 3, ?_, ?_, ?_⟩
  · rw [strstr, paddedBlock_cstr]
    rfl
  · rw [paddedBlock_strlen]
    have h : paddedBlock n = [34] ++ ([120, 34] ++ 58 :: (123 :: (List.replicate n 32 ++ [125]))) :=
      rfl
    have h1 : 0 + strlen [120] = ([34] : List Nat).length := by decide
    rw [h, h1, memchr_append, memchrFrom_found [120, 34] _ 58 _ _ (by decide)
      (by simp only [List.length_cons, List.length_nil]; omega)]
    rfl
  · rw [paddedBlock_strlen, show n + 6 - 3 = (n + 2) + 1 by omega, skipBlanks]
    have h4 : (paddedBlock n).getD (3 + 1) 0 = 123 := rfl
    rw [h4]
    simp

theorem paddedBlock_value (n : Nat) :
    lq_getJsonPropValue (paddedBlock n) [120] =
      some { value := some 4, len := (n + 2) % 65536, type := lqcJsonPropType_object } := by
  rw [getJsonPropValue_classify (paddedBlock n) [120] 4 (by decide) (paddedBlock_locates n)]
  have hlen := findJsonBlockLength_balanced (paddedBlock n) (strlen (paddedBlock n)) 123 125 4
    (n + 1) (by decide) (by rw [paddedBlock_strlen]; omega)
    (fun k hk => by rw [paddedBlock_depth n k (by omega)]; decide)
    (by
      rw [depthFrom, paddedBlock_depth n n (le_refl _), paddedBlock_close]
      decide)
  have h4 : (paddedBlock n).getD 4 0 = 123 := rfl
  simp only [classify, h4, if_true, hlen]

/-! ## The fuel of the scans is enough

Each loop of the JSON locator stops at `jsonEnd` at the latest; the fuel the
callers pass covers that distance, and more fuel does not change the result. -/

theorem blockScan_fuel (json : List Nat) (e o c f1 f2 op next : Nat) (h1 : e - next ≤ f1)
    (h2 : e - next ≤ f2) :
    blockScan json e o c f1 op next = blockScan json e o c f2 op next := by
  induction f1 generalizing f2 op next with
  | zero =>
    cases f2 with
    | zero => rfl
    | succ f2 =>
      rw [blockScan, blockScan, if_neg (by omega)]
  | succ f1 ih =>
    cases f2 with
    | zero =>
      rw [blockScan, blockScan, if_neg (by omega)]
    | succ f2 =>
      rw [blockScan, blockScan]
      split
      · exact ih _ _ _ (by omega) (by omega)
      · rfl

theorem numScan_fuel (json : List Nat) (e f1 f2 next : Nat) (ty : lqJsonPropType_t)
    (h1 : e - next ≤ f1) (h2 : e - next ≤ f2) :
    numScan json e f1 next ty = numScan json e f2 next ty := by
  induction f1 generalizing f2 next ty with
  | zero =>
    cases f2 with
    | zero => rfl
    | succ f2 =>
      rw [numScan, numScan, if_neg (by omega)]
  | succ f1 ih =>
    cases f2 with
    | zero =>
      rw [numScan, numScan, if_neg (by omega)]
    | succ f2 =>
      rw [numScan, numScan]
      split
      · exact ih _ _ _ (by omega) (by omega)
      · rfl

theorem skipBlanks_fuel (json : List Nat) (e f1 f2 next : Nat) (hn : next ≤ e)
    (h1 : e + 1 - next ≤ f1) (h2 : e + 1 - next ≤ f2) :
    skipBlanks json e f1 next = skipBlanks json e f2 next := by
  induction f1 generalizing f2 next with
  | zero => omega
  | succ f1 ih =>
    cases f2 with
    | zero => omega
    | succ f2 =>
      rw [skipBlanks, skipBlanks]
      split
      · split
        · rfl
        · exact ih _ _ (by omega) (by omega) (by omega)
      · rfl

/-! ## Bounds of the scans -/

theorem getD_strlen (json : List Nat) : json.getD (strlen json) 0 = 0 := by
  induction json with
  | nil => rfl
  | cons b bs ih =>
    simp only [strlen, cstr] at ih ⊢
    rw [List.takeWhile_cons]
    by_cases hb : b = 0
    · simp [hb]
    · have hb2 : (b != 0) = true := by simpa using hb
      rw [hb2]
      simpa using ih

theorem skipBlanks_some (json : List Nat) (e fuel next p : Nat)
    (h : skipBlanks json e fuel next = some p) : next ≤ p ∧ (p = next ∨ p < e) := by
  induction fuel generalizing next with
  | zero =>
    simp only [skipBlanks, Option.some.injEq] at h
    omega
  | succ fuel ih =>
    rw [skipBlanks] at h
    split at h
    · split at h
      · simp at h
      · have := ih (next + 1) h
        omega
    · simp only [Option.some.injEq] at h
      omega

theorem blockScan_bounds (json : List Nat) (e o c fuel op next : Nat) (hn : next ≤ e) :
    next ≤ blockScan json e o c fuel op next ∧ blockScan json e o c fuel op next ≤ e := by
  induction fuel generalizing op next with
  | zero => exact ⟨le_refl _, hn⟩
  | succ fuel ih =>
    rw [blockScan]
    split
    · rename_i hc
      exact ⟨le_trans (Nat.le_succ _) (ih _ (next + 1) (by omega)).1,
        (ih _ (next + 1) (by omega)).2⟩
    · exact ⟨le_refl _, hn⟩

theorem numScan_spec (json : List Nat) (e fuel next : Nat) (ty : lqJsonPropType_t)
    (hn : next ≤ e) (hfuel : e - next ≤ fuel) :
    next ≤ (numScan json e fuel next ty).1 ∧ (numScan json e fuel next ty).1 ≤ e ∧
    ((numScan json e fuel next ty).2 = ty ∨
      (numScan json e fuel next ty).2 = lqcJsonPropType_float) ∧
    ((numScan json e fuel next ty).2 = lqcJsonPropType_float ↔
      ty = lqcJsonPropType_float ∨
        ∃ j, next < j ∧ j ≤ (numScan json e fuel next ty).1 ∧ json.getD j 0 = 46) ∧
    (json.getD (numScan json e fuel next ty).1 0 = 44 ∨
      json.getD (numScan json e fuel next ty).1 0 = 125 ∨
      (numScan json e fuel next ty).1 = e) := by
  induction fuel generalizing next ty with
  | zero =>
    have : next = e := by omega
    subst this
    refine ⟨le_refl _, le_refl _, Or.inl rfl, ?_, Or.inr (Or.inr rfl)⟩
    show ty = lqcJsonPropType_float ↔
      ty = lqcJsonPropType_float ∨ ∃ j, next < j ∧ j ≤ next ∧ json.getD j 0 = 46
    constructor
    · intro h; exact Or.inl h
    · rintro (h | ⟨j, h1, h2, _⟩)
      · exact h
      · omega
  | succ fuel ih =>
    rw [numScan]
    split
    · rename_i hc
      obtain ⟨h1, h2, h3, h4, h5⟩ := ih (next + 1)
        (if json.getD (next + 1) 0 = 46 then lqcJsonPropType_float else ty)
        (by omega) (by omega)
      refine ⟨by omega, h2, ?_, ?_, h5⟩
      · rcases h3 with h3 | h3
        · by_cases hdot : json.getD (next + 1) 0 = 46
          · rw [if_pos hdot] at h3 ⊢
            exact Or.inr h3
          · rw [if_neg hdot] at h3 ⊢
            exact Or.inl h3
        · exact Or.inr h3
      · rw [h4]
        constructor
        · rintro (h | ⟨j, hj1, hj2, hj3⟩)
          · by_cases hdot : json.getD (next + 1) 0 = 46
            · exact Or.inr ⟨next + 1, by omega, h1, hdot⟩
            · rw [if_neg hdot] at h
              exact Or.inl h
          · exact Or.inr ⟨j, by omega, hj2, hj3⟩
        · rintro (h | ⟨j, hj1, hj2, hj3⟩)
          · left
            rw [h]
            split <;> rfl
          · by_cases hj : j = next + 1
            · left
              rw [← hj, if_pos hj3]
            · exact Or.inr ⟨j, by omega, hj2, hj3⟩
    · rename_i hc
      refine ⟨le_refl _, hn, Or.inl rfl, ?_, ?_⟩
      · constructor
        · intro h; exact Or.inl h
        · rintro (h | ⟨j, h1, h2, _⟩)
          · exact h
          · omega
      · by_cases h44 : json.getD next 0 = 44
        · exact Or.inl h44
        · by_cases h125 : json.getD next 0 = 125
          · exact Or.inr (Or.inl h125)
          · right; right
            have : ¬ next < e := fun h => hc ⟨h44, h125, h⟩
            omega

theorem codeLocates_le (jsonSrc propName : List Nat) (p : Nat)
    (hfirst : CodeLocates jsonSrc propName p) : p ≤ strlen jsonSrc := by
  obtain ⟨m, c, _, hmc, hsk⟩ := hfirst
  obtain ⟨h1, h2, _⟩ := memchr_some _ _ _ _ _ hmc
  have := skipBlanks_some _ _ _ _ _ hsk
  omega

/-! ## The span of the result -/

theorem lt_strlen_of_ne_zero (json : List Nat) (p : Nat) (hp : p ≤ strlen json)
    (hb : json.getD p 0 ≠ 0) : p < strlen json := by
  by_contra h
  have : p = strlen json := by omega
  rw [this, getD_strlen] at hb
  exact hb rfl

theorem findJsonBlockLength_le (json : List Nat) (p e o c : Nat) (hp : p ≤ e) :
    p + findJsonBlockLength json p e o c ≤ e + 1 := by
  have hb := blockScan_bounds json e o c (e - p) 1 p hp
  have hmod := Nat.mod_le (blockScan json e o c (e - p) 1 p - p + 1) 65536
  rw [findJsonBlockLength]
  omega

theorem classify_span (json : List Nat) (p : Nat) (r : lqJsonPropValue_t)
    (hp : p ≤ strlen json) (h : classify json (strlen json) p = some r) :
    ∃ v, r.value = some v ∧
      (((r.type = lqcJsonPropType_int ∨ r.type = lqcJsonPropType_float ∨
          r.type = lqcJsonPropType_text) ∧ v + r.len ≤ strlen json) ∨
       ((r.type = lqcJsonPropType_object ∨ r.type = lqcJsonPropType_array) ∧
          v < strlen json ∧ v + r.len ≤ strlen json + 1) ∨
       ((r.type = lqcJsonPropType_bool ∨ r.type = lqcJsonPropType_null) ∧
          v < strlen json ∧ (r.len = 4 ∨ r.len = 5))) := by
  rw [classify] at h
  simp only at h
  split_ifs at h with c1 c2 c3 c4 c5 c6
  · simp only [Option.some.injEq] at h
    subst h
    exact ⟨p, rfl, Or.inr (Or.inl ⟨Or.inl rfl,
      lt_strlen_of_ne_zero json p hp (by rw [c1]; decide), findJsonBlockLength_le _ _ _ _ _ hp⟩)⟩
  · simp only [Option.some.injEq] at h
    subst h
    exact ⟨p, rfl, Or.inr (Or.inl ⟨Or.inr rfl,
      lt_strlen_of_ne_zero json p hp (by rw [c2]; decide), findJsonBlockLength_le _ _ _ _ _ hp⟩)⟩
  · obtain ⟨q, hq, hr⟩ := Option.map_eq_some'.mp h
    subst hr
    obtain ⟨h1, h2, _⟩ := memchr_some _ _ _ _ _ hq
    have hlt := lt_strlen_of_ne_zero json p hp (by rw [c3]; decide)
    exact ⟨p + 1, rfl, Or.inl ⟨Or.inr (Or.inr rfl), by simp only; omega⟩⟩
  · simp only [Option.some.injEq] at h
    subst h
    exact ⟨p, rfl, Or.inr (Or.inr ⟨Or.inl rfl,
      lt_strlen_of_ne_zero json p hp (by rw [c4]; decide), Or.inl rfl⟩)⟩
  · simp only [Option.some.injEq] at h
    subst h
    exact ⟨p, rfl, Or.inr (Or.inr ⟨Or.inl rfl,
      lt_strlen_of_ne_zero json p hp (by rw [c5]; decide), Or.inr rfl⟩)⟩
  · simp only [Option.some.injEq] at h
    subst h
    exact ⟨p, rfl, Or.inr (Or.inr ⟨Or.inr rfl,
      lt_strlen_of_ne_zero json p hp (by rw [c6]; decide), Or.inl rfl⟩)⟩
  · simp only [Option.some.injEq] at h
    subst h
    obtain ⟨n1, n2, n3, _, _⟩ := numScan_spec json (strlen json) (strlen json - p) p
      lqcJsonPropType_int hp (le_refl _)
    refine ⟨p, rfl, Or.inl ⟨?_, by simp only; omega⟩⟩
    rcases n3 with h | h
    · exact Or.inl h
    · exact Or.inr (Or.inl h)

/-- C8 (amended): result invariant of `lq_getJsonPropValue`. Whenever the call
has a defined result (the name fits the pattern array and a text value is
closed), the result is either the zeroed NotFound value, or has kind Int, Float
or Text with its span inside the string (`value + len ≤ strlen json`), or has
kind Object or Array with its first byte inside the string and
`value + len ≤ strlen json + 1`, or has kind Bool or Null with its first byte
inside the string and the fixed length 4 or 5. -/
theorem getJsonPropValue_span (jsonSrc propName : List Nat) (r : lqJsonPropValue_t)
    (h : lq_getJsonPropValue jsonSrc propName = some r) :
    r = { value := none, len := 0, type := lqcJsonPropType_notFound } ∨
    ∃ v, r.value = some v ∧
      (((r.type = lqcJsonPropType_int ∨ r.type = lqcJsonPropType_float ∨
          r.type = lqcJsonPropType_text) ∧ v + r.len ≤ strlen jsonSrc) ∨
       ((r.type = lqcJsonPropType_object ∨ r.type = lqcJsonPropType_array) ∧
          v < strlen jsonSrc ∧ v + r.len ≤ strlen jsonSrc + 1) ∨
       ((r.type = lqcJsonPropType_bool ∨ r.type = lqcJsonPropType_null) ∧
          v < strlen jsonSrc ∧ (r.len = 4 ∨ r.len = 5))) := by
  rw [lq_getJsonPropValue] at h
  split at h
  · exact absurd h (by simp)
  · split at h
    · left
      simp only [Option.some.injEq] at h
      exact h.symm
    · split at h
      · left
        simp only [Option.some.injEq] at h
        exact h.symm
      · rename_i c hmc
        split at h
        · left
          simp only [Option.some.injEq] at h
          exact h.symm
        · rename_i p hsk
          right
          obtain ⟨h1, h2, _⟩ := memchr_some _ _ _ _ _ hmc
          have := skipBlanks_some _ _ _ _ _ hsk
          exact classify_span jsonSrc p r (by omega) h

/-- Witness of C8 (amended): `{"x":42,"y":"hi"}` with name `y`. -/
theorem getJsonPropValue_span_witness :
    lq_getJsonPropValue
        [123, 34, 120, 34, 58, 52, 50, 44, 34, 121, 34, 58, 34, 104, 105, 34, 125] [121] =
      some { value := some 13, len := 2, type := lqcJsonPropType_text } ∧
    (({ value := some 13, len := 2, type := lqcJsonPropType_text } : lqJsonPropValue_t) =
        { value := none, len := 0, type := lqcJsonPropType_notFound } ∨
      ∃ v, (some 13 : Option Nat) = some v ∧
        (((lqcJsonPropType_text = lqcJsonPropType_int ∨
            lqcJsonPropType_text = lqcJsonPropType_float ∨
            lqcJsonPropType_text = lqcJsonPropType_text) ∧
            v + 2 ≤ strlen
              [123, 34, 120, 34, 58, 52, 50, 44, 34, 121, 34, 58, 34, 104, 105, 34, 125]) ∨
         ((lqcJsonPropType_text = lqcJsonPropType_object ∨
            lqcJsonPropType_text = lqcJsonPropType_array) ∧
            v < strlen
              [123, 34, 120, 34, 58, 52, 50, 44, 34, 121, 34, 58, 34, 104, 105, 34, 125] ∧
            v + 2 ≤ strlen
              [123, 34, 120, 34, 58, 52, 50, 44, 34, 121, 34, 58, 34, 104, 105, 34, 125] + 1) ∨
         ((lqcJsonPropType_text = lqcJsonPropType_bool ∨
            lqcJsonPropType_text = lqcJsonPropType_null) ∧
            v < strlen
              [123, 34, 120, 34, 58, 52, 50, 44, 34, 121, 34, 58, 34, 104, 105, 34, 125] ∧
            ((2 : Nat) = 4 ∨ (2 : Nat) = 5)))) :=
  ⟨by decide,
    getJsonPropValue_span
      [123, 34, 120, 34, 58, 52, 50, 44, 34, 121, 34, 58, 34, 104, 105, 34, 125] [121]
      { value := some 13, len := 2, type := lqcJsonPropType_text } (by decide)⟩

/-- C8 as stated fails: (1) in `{"a":t` the value of `a` has kind Bool at offset 5
with the fixed length 4, while the string has 6 bytes; (2) in `{"x":{` the value
of `x` is an unclosed block at offset 5 whose length 2 reaches one byte past the
6 bytes of the string; (3) in `{"f":"ab` the text value is not closed and the
length has no defined value. -/
theorem getJsonPropValue_span_overrun :
    (lq_getJsonPropValue [123, 34, 97, 34, 58, 116] [97] =
        some { value := some 5, len := 4, type := lqcJsonPropType_bool } ∧
      ¬ (5 + 4 ≤ strlen [123, 34, 97, 34, 58, 116])) ∧
    (lq_getJsonPropValue [123, 34, 120, 34, 58, 123] [120] =
        some { value := some 5, len := 2, type := lqcJsonPropType_object } ∧
      ¬ (5 + 2 ≤ strlen [123, 34, 120, 34, 58, 123])) ∧
    lq_getJsonPropValue [123, 34, 102, 34, 58, 34, 97, 98] [102] = none := by
  decide

/-! ## Text, numeric and literal values -/

theorem memchrFrom_first (l : List Nat) (c n off k : Nat) (hc : c ≠ 0) (hk : k < n)
    (hat : l.getD k 0 = c) (hbefore : ∀ j, j < k → l.getD j 0 ≠ c) :
    memchrFrom l c n off = some (off + k) := by
  induction l generalizing n off k with
  | nil => exact absurd hat.symm hc
  | cons b bs ih =>
    cases n with
    | zero => omega
    | succ n =>
      rw [memchrFrom]
      cases k with
      | zero =>
        have : b = c := by simpa using hat
        rw [if_pos this]
        rfl
      | succ k =>
        have hb : b ≠ c := by simpa using hbefore 0 (by omega)
        rw [if_neg hb, ih n (off + 1) k (by omega) (by simpa using hat)
          (fun j hj => by simpa using hbefore (j + 1) (by omega))]
        congr 1
        omega

theorem memchr_first (buf : List Nat) (s c n q : Nat) (hc : c ≠ 0) (hs : s ≤ q)
    (hq : q < s + n) (hat : buf.getD q 0 = c)
    (hbefore : ∀ j, s ≤ j → j < q → buf.getD j 0 ≠ c) : memchr buf s c n = some q := by
  have h := memchrFrom_first (buf.drop s) c n s (q - s) hc (by omega)
    (by
      rw [List.getD_eq_getElem?_getD, List.getElem?_drop, show s + (q - s) = q by omega,
        ← List.getD_eq_getElem?_getD]
      exact hat)
    (fun j hj => by
      rw [List.getD_eq_getElem?_getD, List.getElem?_drop, ← List.getD_eq_getElem?_getD]
      exact hbefore (s + j) (by omega) (by omega))
  rw [memchr, h]
  congr 1
  omega

theorem numScan_stop (json : List Nat) (e fuel next r : Nat) (ty : lqJsonPropType_t)
    (hnr : next ≤ r) (hr : r ≤ e) (hfuel : e - next ≤ fuel)
    (hbefore : ∀ j, next ≤ j → j < r → json.getD j 0 ≠ 44 ∧ json.getD j 0 ≠ 125)
    (hstop : r = e ∨ json.getD r 0 = 44 ∨ json.getD r 0 = 125) :
    (numScan json e fuel next ty).1 = r := by
  induction fuel generalizing next ty with
  | zero =>
    have : next = r := by omega
    subst this
    rfl
  | succ fuel ih =>
    rw [numScan]
    by_cases hn : next = r
    · subst hn
      rw [if_neg]
      rintro ⟨h1, h2, h3⟩
      rcases hstop with h | h | h
      · omega
      · exact h1 h
      · exact h2 h
    · have hb := hbefore next (le_refl _) (by omega)
      rw [if_pos ⟨hb.1, hb.2, by omega⟩]
      exact ih (next + 1) _ (by omega) (by omega) (fun j h1 h2 => hbefore j (by omega) h2)

/-! ## Lookup: no-effect cases and the effect of a match -/

theorem lookupLoop_noMatch (key : List Nat) (dict : keyValueDict_t) (src value : List Nat)
    (n fuel start : Nat)
    (h : ∀ i, start ≤ i → i < start + fuel →
      ∃ k, dict.keys.getD i none = some k ∧ cstrAt src k ≠ cstr key) :
    lookupLoop key dict src value n fuel start = some value := by
  induction fuel generalizing start with
  | zero => rfl
  | succ fuel ih =>
    obtain ⟨k, hk, hne⟩ := h start (le_refl _) (by omega)
    rw [lookupLoop]
    simp only [hk, hne, if_false]
    exact ih (start + 1) (fun i h1 h2 => h i (by omega) (by omega))

/-- C14: no-effect cases of `lq_getQryStrDictionaryValue`. For every dictionary,
key, output buffer and capacity the output buffer is returned unchanged when
the first key is `NULL` or empty (whatever the other entries hold), and when
every key among the first `count` entries is a string different from the
searched key. -/
theorem getQryStrDictionaryValue_noEffect (key : List Nat) (dict : keyValueDict_t)
    (src out : List Nat) (valSz : Nat) :
    ((dict.keys.getD 0 none = none ∨
        ∃ k0, dict.keys.getD 0 none = some k0 ∧ src.getD k0 0 = 0) →
      lq_getQryStrDictionaryValue key dict src out valSz = some out) ∧
    ((∀ i, i < dict.count →
        ∃ k, dict.keys.getD i none = some k ∧ cstrAt src k ≠ cstr key) →
      lq_getQryStrDictionaryValue key dict src out valSz = some out) := by
  constructor
  · rintro (h | ⟨k0, h1, h2⟩)
    · rw [lq_getQryStrDictionaryValue, h]
    · rw [lq_getQryStrDictionaryValue, h1]
      simp only [h2, if_true]
  · intro h
    rw [lq_getQryStrDictionaryValue]
    split
    · rfl
    · split
      · rfl
      · exact lookupLoop_noMatch key dict src out _ dict.count 0
          (fun i _ h2 => h i (by omega))

/-- Witness of C14: in the dictionary built from `=1&b=2` the first key is empty and
the lookup of `b` leaves the output as it was; in the dictionary built from
`a=1&b=2` the key `c` matches no entry. -/
theorem getQryStrDictionaryValue_noEffect_witness :
    lq_getQryStrDictionaryValue [98]
        (lq_createQryStrDictionary 15 [61, 49, 38, 98, 61, 50, 0] 6).1
        (lq_createQryStrDictionary 15 [61, 49, 38, 98, 61, 50, 0] 6).2 [7, 8, 9] 3 =
      some [7, 8, 9] ∧
    lq_getQryStrDictionaryValue [99]
        (lq_createQryStrDictionary 15 [97, 61, 49, 38, 98, 61, 50, 0] 7).1
        (lq_createQryStrDictionary 15 [97, 61, 49, 38, 98, 61, 50, 0] 7).2 [7, 8, 9] 3 =
      some [7, 8, 9] :=
  ⟨(getQryStrDictionaryValue_noEffect [98]
      (lq_createQryStrDictionary 15 [61, 49, 38, 98, 61, 50, 0] 6).1
      (lq_createQryStrDictionary 15 [61, 49, 38, 98, 61, 50, 0] 6).2 [7, 8, 9] 3).1
      (Or.inr ⟨0, by decide, by decide⟩),
    (getQryStrDictionaryValue_noEffect [99]
      (lq_createQryStrDictionary 15 [97, 61, 49, 38, 98, 61, 50, 0] 7).1
      (lq_createQryStrDictionary 15 [97, 61, 49, 38, 98, 61, 50, 0] 7).2 [7, 8, 9] 3).2
      (by
        intro i hi
        have h2 : i < 2 := hi
        interval_cases i
        · exact ⟨0, by decide, by decide⟩
        · exact ⟨4, by decide, by decide⟩)⟩

/-- C19: effect of a successful `lq_getQryStrDictionaryValue`. For a dictionary
whose first key is neither `NULL` nor empty, a key whose smallest matching index
below `count` is `i`, and an output buffer of `valSz` bytes (`1 ≤ valSz ≤ 255`):
after the call the first `valSz - 1` bytes of the output are the first
`min (length value) (valSz - 1)` bytes of `values[i]` followed by NUL padding,
every byte from index `valSz - 1` on is unchanged, and the byte at index
`valSz - 1` is NUL when the buffer was zeroed before the call. -/
theorem getQryStrDictionaryValue_effect (key : List Nat) (dict : keyValueDict_t)
    (src out : List Nat) (valSz i vi k0 : Nat) (hcap1 : 1 ≤ valSz) (hcap8 : valSz < 256)
    (hout : valSz ≤ out.length)
    (hfirst : dict.keys.getD 0 none = some k0) (hnonempty : src.getD k0 0 ≠ 0)
    (hi : i < dict.count)
    (hbefore : ∀ l < i, ∃ kl, dict.keys.getD l none = some kl ∧ cstrAt src kl ≠ cstr key)
    (hat : ∃ ki, dict.keys.getD i none = some ki ∧ cstrAt src ki = cstr key)
    (hval : dict.values.getD i none = some vi) :
    ∃ out2,
      lq_getQryStrDictionaryValue key dict src out valSz = some out2 ∧
      out2.length = out.length ∧
      out2.take (valSz - 1) =
        (cstrAt src vi).take (min (cstrAt src vi).length (valSz - 1)) ++
          List.replicate (valSz - 1 - min (cstrAt src vi).length (valSz - 1)) 0 ∧
      out2.drop (valSz - 1) = out.drop (valSz - 1) ∧
      ((∀ b ∈ out, b = 0) → out2.getD (valSz - 1) 1 = 0) := by
  refine ⟨_, getValue_found key dict src out valSz i vi k0 hcap1 hcap8 hfirst hnonempty hi
    hbefore hat hval, ?_⟩
  generalize cstrAt src vi = v
  have hl : (v.take (valSz - 1) ++ List.replicate (valSz - 1 - v.length) 0).length =
      valSz - 1 := by
    simp only [List.length_append, List.length_take, List.length_replicate]
    omega
  have hshape : v.take (min v.length (valSz - 1)) ++
      List.replicate (valSz - 1 - min v.length (valSz - 1)) 0 =
      v.take (valSz - 1) ++ List.replicate (valSz - 1 - v.length) 0 := by
    by_cases h : v.length ≤ valSz - 1
    · rw [Nat.min_eq_left h, List.take_of_length_le (le_refl _), List.take_of_length_le h]
    · rw [Nat.min_eq_right (by omega)]
      congr 2
      omega
  have hsplit : ∀ (A B : List Nat) (n : Nat), A.length = n →
      (A ++ B).drop n = B ∧ (A ++ B).take n = A := by
    intro A B n h
    subst h
    exact ⟨List.drop_left _ _, List.take_left _ _⟩
  have hdrop : (strncpy out v (valSz - 1)).drop (valSz - 1) = out.drop (valSz - 1) := by
    rw [strncpy]
    exact (hsplit _ _ _ hl).1
  refine ⟨?_, ?_, hdrop, ?_⟩
  · simp only [strncpy, List.length_append, List.length_take, List.length_replicate,
      List.length_drop]
    omega
  · rw [hshape, strncpy]
    exact (hsplit _ _ _ hl).2
  · intro hz
    have hlt : valSz - 1 < out.length := by omega
    have h1 : (strncpy out v (valSz - 1)).getD (valSz - 1) 1 =
        ((strncpy out v (valSz - 1)).drop (valSz - 1)).getD 0 1 := by
      simp [List.getD_eq_getElem?_getD, List.getElem?_drop]
    rw [h1, hdrop, List.drop_eq_getElem_cons hlt]
    exact hz _ (List.getElem_mem _)

/-- Witness of C19: the dictionary of `a=1&b=hello&b=x`, key `b` (first match is
entry 1), capacity 4, output buffer `7 8 9 0 5`. -/
theorem getQryStrDictionaryValue_effect_witness :
    ∃ out2,
      lq_getQryStrDictionaryValue [98]
        { count := 3, length := 15, keys := [some 0, some 4, some 12],
          values := [some 2, some 6, some 14] }
        [97, 0, 49, 0, 98, 0, 104, 101, 108, 108, 111, 0, 98, 0, 120, 0] [7, 8, 9, 0, 5] 4 =
          some out2 ∧
      out2.length = [7, 8, 9, 0, 5].length ∧
      out2.take (4 - 1) =
        (cstrAt [97, 0, 49, 0, 98, 0, 104, 101, 108, 108, 111, 0, 98, 0, 120, 0] 6).take
            (min (cstrAt [97, 0, 49, 0, 98, 0, 104, 101, 108, 108, 111, 0, 98, 0, 120, 0]
              6).length (4 - 1)) ++
          List.replicate (4 - 1 -
            min (cstrAt [97, 0, 49, 0, 98, 0, 104, 101, 108, 108, 111, 0, 98, 0, 120, 0]
              6).length (4 - 1)) 0 ∧
      out2.drop (4 - 1) = [7, 8, 9, 0, 5].drop (4 - 1) ∧
      ((∀ b ∈ [7, 8, 9, 0, 5], b = 0) → out2.getD (4 - 1) 1 = 0) :=
  getQryStrDictionaryValue_effect [98]
    { count := 3, length := 15, keys := [some 0, some 4, some 12],
      values := [some 2, some 6, some 14] }
    [97, 0, 49, 0, 98, 0, 104, 101, 108, 108, 111, 0, 98, 0, 120, 0] [7, 8, 9, 0, 5] 4 1 6 0
    (by decide) (by decide) (by decide) (by decide) (by decide) (by decide)
    (fun l hl => by
      have : l = 0 := by omega
      subst this
      exact ⟨0, by decide, by decide⟩)
    ⟨4, by decide, by decide⟩ (by decide)

/-! ## A trailing segment without `=` -/

theorem joinSegs_flatS (tb : Nat) (segs : List (List Nat)) (hne : segs ≠ [])
    (rest : List Nat) : joinSegs segs ++ tb :: rest = flatS tb segs ++ rest := by
  induction segs with
  | nil => exact absurd rfl hne
  | cons s ss ih =>
    cases ss with
    | nil => simp [joinSegs, flatS]
    | cons s2 ss2 =>
      have := ih (by simp)
      simp only [joinSegs, flatS, List.append_assoc, List.cons_append] at this ⊢
      rw [this]

theorem joinSegs_length (tb : Nat) (segs : List (List Nat)) (hne : segs ≠ []) :
    (joinSegs segs).length + 1 = (flatS tb segs).length := by
  have := congrArg List.length (joinSegs_flatS tb segs hne [])
  simpa using this

theorem keysAfter_getD_append (f i off : Nat) (ps : List (List Nat × List Nat))
    (more : List (List Nat)) (keys : List (Option Nat)) (j : Nat) (hjf : j < f)
    (hjn : j ≤ ps.length) (hjl : j < ps.length + more.length) (hlen : i + j < keys.length) :
    (keysAfter f i off (ps.map seg ++ more) keys).getD (i + j) none =
      some (off + keyOff ps j) := by
  induction f generalizing i off ps keys j with
  | zero => omega
  | succ f ih =>
    cases ps with
    | nil =>
      have hj0 : j = 0 := by simpa using hjn
      subst hj0
      cases more with
      | nil => simp at hjl
      | cons s ss =>
        simp only [List.map_nil, List.nil_append, keysAfter, Nat.add_zero] at hlen ⊢
        rw [keysAfter_getD_lt _ _ _ _ _ _ (by omega)]
        simp only [List.getD_eq_getElem?_getD]
        rw [List.getElem?_set_self (by omega)]
        simp [keyOff]
    | cons kv ps =>
      rw [List.map_cons, List.cons_append, keysAfter]
      cases j with
      | zero =>
        simp only [Nat.add_zero] at hlen ⊢
        rw [keysAfter_getD_lt _ _ _ _ _ _ (by omega)]
        simp only [List.getD_eq_getElem?_getD]
        rw [List.getElem?_set_self (by omega)]
        simp [keyOff]
      | succ j =>
        have := ih (i + 1) (off + (seg kv).length + 1) ps (keys.set i (some off)) j
          (by omega) (by simpa using hjn) (by simp only [List.length_cons] at hjl; omega)
          (by simp; omega)
        rw [show i + (j + 1) = i + 1 + j by omega, this]
        simp only [keyOff, seg, List.length_append, List.length_cons]
        congr 1
        omega

theorem splitPass_trailing (tb : Nat) (ps : List (List Nat × List Nat)) (t : List Nat)
    (h61 : ∀ kv ∈ ps, 61 ∉ kv.1) (ht : 61 ∉ t) (pre rest : List Nat) (endAt : Nat)
    (hend : endAt + 1 = pre.length + (flatS tb (ps.map seg ++ [t])).length) (i : Nat)
    (result : keyValueDict_t)
    (hkeys : ∀ j, j ≤ ps.length →
      result.keys.getD (i + j) none = some (pre.length + keyOff ps j)) :
    splitPass endAt (ps.length + 1) i
        (pre ++ (p1Buf tb (ps.length + 1) (ps.map seg ++ [t]) ++ rest)) result =
      ({ result with
          values := valuesAfter ps.length i pre.length ps result.values,
          count := i + ps.length },
        pre ++ (p2Buf tb ps.length ps ++ (t ++ 0 :: rest))) := by
  induction ps generalizing pre i result with
  | nil =>
    have hk0 : result.keys.getD i none = some pre.length := by
      have := hkeys 0 (le_refl _)
      simpa [keyOff] using this
    have he : endAt - pre.length = t.length := by
      simp [flatS] at hend
      omega
    have hbuf : pre ++ (p1Buf tb ([] : List (List Nat × List Nat)).length.succ
        (([] : List (List Nat × List Nat)).map seg ++ [t]) ++ rest) =
        pre ++ (t ++ 0 :: rest) := by
      simp [p1Buf, p1Buf_nil, flatS]
    have hmc : memchr (pre ++ (t ++ 0 :: rest)) pre.length 61 (endAt - pre.length) = none := by
      rw [memchr_append, he]
      exact memchrFrom_none t _ 61 _ _ ht (le_refl _)
    rw [show ([] : List (List Nat × List Nat)).length + 1 =
      ([] : List (List Nat × List Nat)).length.succ from rfl, hbuf, splitPass]
    simp only [hk0, Option.some_bind, hmc]
    simp [valuesAfter, p2Buf, flatS]
  | cons kv ps ih =>
    have hk : 61 ∉ kv.1 := h61 kv (by simp)
    have hk0 : result.keys.getD i none = some pre.length := by
      have := hkeys 0 (by omega)
      simpa [keyOff] using this
    have hlen := flatS_length_cons tb (seg kv) (ps.map seg ++ [t])
    have hseg : (seg kv).length = kv.1.length + 1 + kv.2.length := by simp [seg]; omega
    have hend2 : endAt + 1 = pre.length + ((seg kv).length + 1 +
        (flatS tb (ps.map seg ++ [t])).length) := by
      rw [← hlen]
      simpa using hend
    have hbuf : pre ++ (p1Buf tb ((kv :: ps).length + 1) ((kv :: ps).map seg ++ [t]) ++ rest) =
        pre ++ (kv.1 ++ 61 :: (kv.2 ++ 0 ::
          (p1Buf tb (ps.length + 1) (ps.map seg ++ [t]) ++ rest))) := by
      simp [p1Buf, seg]
    have hmc : memchr (pre ++ (kv.1 ++ 61 :: (kv.2 ++ 0 ::
          (p1Buf tb (ps.length + 1) (ps.map seg ++ [t]) ++ rest)))) pre.length 61
          (endAt - pre.length) = some (pre.length + kv.1.length) := by
      rw [memchr_append]
      apply memchrFrom_found _ _ _ _ _ hk
      omega
    rw [hbuf, show (kv :: ps).length + 1 = (ps.length + 1) + 1 from rfl, splitPass]
    simp only [hk0, Option.some_bind, hmc]
    rw [set_append_mid]
    have hb2 : pre ++ (kv.1 ++ 0 :: (kv.2 ++ 0 ::
          (p1Buf tb (ps.length + 1) (ps.map seg ++ [t]) ++ rest))) =
        (pre ++ (kv.1 ++ 0 :: (kv.2 ++ [0]))) ++
          (p1Buf tb (ps.length + 1) (ps.map seg ++ [t]) ++ rest) := by
      simp
    have hl : (pre ++ (kv.1 ++ 0 :: (kv.2 ++ [0]))).length =
        pre.length + kv.1.length + 1 + kv.2.length + 1 := by
      simp; omega
    rw [hb2, ih (fun x hx => h61 x (by simp [hx])) (pre ++ (kv.1 ++ 0 :: (kv.2 ++ [0])))
      (by omega) (i + 1)]
    · simp only [valuesAfter, p2Buf, hl, List.append_assoc, List.cons_append,
        List.nil_append, List.length_cons]
      congr 2
      omega
    · intro j hj
      have := hkeys (j + 1) (by simp only [List.length_cons]; omega)
      simp only [keyOff] at this
      rw [hl]
      rw [show i + 1 + j = i + (j + 1) by omega, this]
      congr 1
      omega

theorem build_trailing_eq (maxCnt : Nat) (ps : List (List Nat × List Nat)) (t : List Nat)
    (hn : ps.length + 1 ≤ maxCnt) (h61 : ∀ kv ∈ ps, 61 ∉ kv.1)
    (h38 : ∀ kv ∈ ps, 38 ∉ kv.1 ∧ 38 ∉ kv.2) (ht : 61 ∉ t ∧ 38 ∉ t)
    (hq : (joinSegs (ps.map seg ++ [t])).length ≠ 0) (tb : Nat) (rest : List Nat) :
    lq_createQryStrDictionary maxCnt (joinSegs (ps.map seg ++ [t]) ++ tb :: rest)
        (joinSegs (ps.map seg ++ [t])).length =
      ({ count := ps.length,
         length := (joinSegs (ps.map seg ++ [t])).length,
         keys := keysAfter maxCnt 0 0 (ps.map seg ++ [t]) (List.replicate maxCnt none),
         values := valuesAfter ps.length 0 0 ps (List.replicate maxCnt none) },
        p2Buf tb ps.length ps ++ (t ++ 0 :: rest)) := by
  obtain ⟨f, rfl⟩ : ∃ f, maxCnt = f + 1 := ⟨maxCnt - 1, by omega⟩
  have hne : ps.map seg ++ [t] ≠ [] := by simp
  have hlen := joinSegs_length tb (ps.map seg ++ [t]) hne
  have hsegs : ∀ s ∈ ps.map seg ++ [t], 38 ∉ s := by
    intro s hs
    rcases List.mem_append.mp hs with hs | hs
    · obtain ⟨kv, hkv, rfl⟩ := List.mem_map.mp hs
      have := h38 kv hkv
      simp only [seg, List.mem_append, List.mem_cons, not_or]
      exact ⟨this.1, by decide, this.2⟩
    · have : s = t := by simpa using hs
      rw [this]
      exact ht.2
  have h1 := segmentPass_flat tb (ps.map seg ++ [t]) hne hsegs [] rest
    (joinSegs (ps.map seg ++ [t])).length (by simpa using hlen) f 0
    { keyValueDict_t.zero (f + 1) with length := (joinSegs (ps.map seg ++ [t])).length }
  have hsl : (ps.map seg ++ [t]).length = ps.length + 1 := by simp
  have hmin : min (f + 1) (ps.length + 1) = ps.length + 1 := by omega
  simp only [List.nil_append, List.length_nil, hsl, hmin, keyValueDict_t.zero] at h1
  have hp := p1Buf_min tb (f + 1) (ps.map seg ++ [t])
  rw [hsl, hmin] at hp
  have h2 := splitPass_trailing tb ps t h61 ht.1 [] rest
    (joinSegs (ps.map seg ++ [t])).length (by simpa using hlen) 0
    { count := ps.length + 1, length := (joinSegs (ps.map seg ++ [t])).length,
      keys := keysAfter (f + 1) 0 0 (ps.map seg ++ [t]) (List.replicate (f + 1) none),
      values := List.replicate (f + 1) none }
    (by
      intro j hj
      have := keysAfter_getD_append (f + 1) 0 0 ps [t] (List.replicate (f + 1) none) j
        (by omega) hj (by simp; omega) (by simp; omega)
      simpa using this)
  simp only [List.nil_append, List.length_nil, Nat.zero_add] at h2
  rw [← hp] at h2
  rw [lq_createQryStrDictionary, if_neg hq]
  simp only [Nat.zero_add, joinSegs_flatS tb (ps.map seg ++ [t]) hne rest, h1,
    keyValueDict_t.zero]
  rw [show ps.length + 1 - 1 + 1 = ps.length + 1 by omega, h2]

/-- C15: trailing malformed segment in `lq_createQryStrDictionary`. For the input
`k1=v1&...&k(n-1)=v(n-1)&t` with `n ≤ maxCnt` segments, where the keys are free of
`=`, `&`, NUL, the values free of `&`, NUL and the last segment `t` holds neither `=`
nor `&`, the result has `count = n - 1` and its pairs are `(k1,v1)`, ...,
`(k(n-1),v(n-1))` in order. -/
theorem createQryStrDictionary_trailingSegment (maxCnt : Nat)
    (ps : List (List Nat × List Nat)) (t : List Nat) (hn : ps.length + 1 ≤ maxCnt)
    (hkey : ∀ kv ∈ ps, 61 ∉ kv.1 ∧ 38 ∉ kv.1 ∧ 0 ∉ kv.1)
    (hvalue : ∀ kv ∈ ps, 38 ∉ kv.2 ∧ 0 ∉ kv.2) (ht : 61 ∉ t ∧ 38 ∉ t)
    (tb : Nat) (rest : List Nat) :
    (lq_createQryStrDictionary maxCnt (joinSegs (ps.map seg ++ [t]) ++ tb :: rest)
        (joinSegs (ps.map seg ++ [t])).length).1.count = ps.length ∧
    ∀ i kv, ps[i]? = some kv →
      ∃ kp vp,
        (lq_createQryStrDictionary maxCnt (joinSegs (ps.map seg ++ [t]) ++ tb :: rest)
          (joinSegs (ps.map seg ++ [t])).length).1.keys.getD i none = some kp ∧
        (lq_createQryStrDictionary maxCnt (joinSegs (ps.map seg ++ [t]) ++ tb :: rest)
          (joinSegs (ps.map seg ++ [t])).length).1.values.getD i none = some vp ∧
        cstrAt (lq_createQryStrDictionary maxCnt (joinSegs (ps.map seg ++ [t]) ++ tb :: rest)
          (joinSegs (ps.map seg ++ [t])).length).2 kp = kv.1 ∧
        cstrAt (lq_createQryStrDictionary maxCnt (joinSegs (ps.map seg ++ [t]) ++ tb :: rest)
          (joinSegs (ps.map seg ++ [t])).length).2 vp = kv.2 := by
  have h61 : ∀ kv ∈ ps, 61 ∉ kv.1 := fun x hx => (hkey x hx).1
  have h38 : ∀ kv ∈ ps, 38 ∉ kv.1 ∧ 38 ∉ kv.2 := fun x hx => ⟨(hkey x hx).2.1, (hvalue x hx).1⟩
  by_cases hq : (joinSegs (ps.map seg ++ [t])).length = 0
  · have hps : ps = [] := by
      cases ps with
      | nil => rfl
      | cons kv ps =>
        exfalso
        have h1 := joinSegs_length 0 ((kv :: ps).map seg ++ [t]) (by simp)
        rw [hq, List.map_cons, List.cons_append, flatS_length_cons] at h1
        simp only [seg, List.length_append, List.length_cons] at h1
        omega
    subst hps
    constructor
    · rw [lq_createQryStrDictionary, if_pos hq]
      rfl
    · intro i kv hi
      simp at hi
  · rw [build_trailing_eq maxCnt ps t hn h61 h38 ht hq tb rest]
    constructor
    · rfl
    · intro i kv hkv
      have hilt : i < ps.length := by
        by_contra h
        rw [List.getElem?_eq_none (by omega)] at hkv
        exact absurd hkv (by simp)
      have hmem : kv ∈ ps := List.getElem?_mem hkv
      obtain ⟨A, B, hAB, hA⟩ := p2Buf_split tb ps.length ps i kv hilt hkv
      refine ⟨A.length, A.length + kv.1.length + 1, ?_, ?_, ?_, ?_⟩
      · have := keysAfter_getD_append maxCnt 0 0 ps [t] (List.replicate maxCnt none) i
          (by omega) (by omega) (by simp; omega) (by simp; omega)
        simpa [hA] using this
      · have := valuesAfter_getD ps.length 0 0 ps (List.replicate maxCnt none) i kv
          hilt hkv (by simp; omega)
        simpa [hA] using this
      · simp only [hAB, List.append_assoc, List.cons_append]
        exact cstrAt_append_nul _ _ _ (hkey kv hmem).2.2
      · simp only [hAB, List.append_assoc, List.cons_append]
        exact cstrAt_value _ _ _ _ (hvalue kv hmem).2

/-- Witness of C15: `a=1&b=2&c` (length 9) gives count 2; the pairs read `(a,1)`
and `(b,2)`. -/
theorem createQryStrDictionary_trailingSegment_witness :
    (lq_createQryStrDictionary 15
        (joinSegs ([([97], [49]), ([98], [50])].map seg ++ [[99]]) ++ 0 :: [])
        (joinSegs ([([97], [49]), ([98], [50])].map seg ++ [[99]])).length).1.count =
      [([97], [49]), ([98], [50])].length ∧
    joinSegs ([([97], [49]), ([98], [50])].map seg ++ [[99]]) =
      [97, 61, 49, 38, 98, 61, 50, 38, 99] ∧
    (lq_createQryStrDictionary 15 [97, 61, 49, 38, 98, 61, 50, 38, 99, 0] 9).1.count = 2 ∧
    cstrAt (lq_createQryStrDictionary 15 [97, 61, 49, 38, 98, 61, 50, 38, 99, 0] 9).2 0 =
      [97] ∧
    cstrAt (lq_createQryStrDictionary 15 [97, 61, 49, 38, 98, 61, 50, 38, 99, 0] 9).2 2 =
      [49] ∧
    cstrAt (lq_createQryStrDictionary 15 [97, 61, 49, 38, 98, 61, 50, 38, 99, 0] 9).2 4 =
      [98] ∧
    cstrAt (lq_createQryStrDictionary 15 [97, 61, 49, 38, 98, 61, 50, 38, 99, 0] 9).2 6 =
      [50] :=
  ⟨(createQryStrDictionary_trailingSegment 15 [([97], [49]), ([98], [50])] [99]
      (by decide) (by decide) (by decide) (by decide) 0 []).1,
    by decide, by decide, by decide, by decide, by decide, by decide⟩

/-! ## The 8-bit counter of the block-length scanner -/

theorem depthFrom_succ (json : List Nat) (o c p k : Nat) :
    depthFrom json o c p (k + 1) =
      depthFrom json o c p k + (if json.getD (p + k + 1) 0 = o then 1 else 0)
        - (if json.getD (p + k + 1) 0 = c then 1 else 0) := rfl

theorem blockScan_mod (json : List Nat) (e o c p n : Nat) (hn : p + n ≤ e)
    (hrun : ∀ k, k < n → depthFrom json o c p k % 256 ≠ 0)
    (hstop : depthFrom json o c p n % 256 = 0 ∨ p + n = e) (fuel k op : Nat) (hk : k ≤ n)
    (hop : (op : Int) = depthFrom json o c p k % 256) (hfuel : n - k ≤ fuel) :
    blockScan json e o c fuel op (p + k) = p + n := by
  induction fuel generalizing k op with
  | zero =>
    have : k = n := by omega
    subst this
    rfl
  | succ fuel ih =>
    rw [blockScan]
    by_cases hkn : k = n
    · subst hkn
      rw [if_neg]
      rintro ⟨h1, h2⟩
      rcases hstop with h | h
      · omega
      · omega
    · have hlt : k < n := by omega
      have h1 := hrun k hlt
      rw [if_pos ⟨by omega, by omega⟩]
      apply ih (k + 1) _ (by omega) _ (by omega)
      rw [depthFrom_succ]
      generalize json.getD (p + k + 1) 0 = b
      generalize depthFrom json o c p k = d at hop h1
      by_cases hbo : b = o
      · by_cases hbc : b = c
        · simp only [if_pos hbo, if_pos hbc]
          omega
        · simp only [if_pos hbo, if_neg hbc]
          omega
      · by_cases hbc : b = c
        · simp only [if_neg hbo, if_pos hbc]
          omega
        · simp only [if_neg hbo, if_neg hbc]
          omega

theorem findJsonBlockLength_mod (json : List Nat) (e o c p n : Nat) (hn : p + n ≤ e)
    (hrun : ∀ k, k < n → depthFrom json o c p k % 256 ≠ 0)
    (hstop : depthFrom json o c p n % 256 = 0 ∨ p + n = e) :
    findJsonBlockLength json p e o c = (n + 1) % 65536 := by
  have := blockScan_mod json e o c p n hn hrun hstop (e - p) 0 1 (by omega) rfl (by omega)
  rw [Nat.add_zero] at this
  rw [findJsonBlockLength, this]
  congr 1
  omega

/-- C18 (amended): unbalanced blocks in `findJsonBlockLength`. For `start < end`, if
the 8-bit open-pair counter never reaches 0 before the scan reaches `end`, the
result is `(end - start + 1) mod 65536`: the span reaches one byte past `end`.
A block whose counter first reaches 0 at offset `start + n ≤ end` gives
`(n + 1) mod 65536`; that is the same length only when the closing delimiter is
the byte at offset `end` itself, and one less (`end - start`) when it is the last
byte before `end`. -/
theorem findJsonBlockLength_unbalanced (json : List Nat) (p e o c : Nat) (hpe : p < e) :
    ((∀ k, k < e - p → depthFrom json o c p k % 256 ≠ 0) →
      findJsonBlockLength json p e o c = (e - p + 1) % 65536) ∧
    (∀ n, p + n ≤ e → (∀ k, k < n → depthFrom json o c p k % 256 ≠ 0) →
      depthFrom json o c p n % 256 = 0 →
      findJsonBlockLength json p e o c = (n + 1) % 65536) := by
  constructor
  · intro h
    exact findJsonBlockLength_mod json e o c p (e - p) (by omega) h (Or.inr (by omega))
  · intro n hn hrun hzero
    exact findJsonBlockLength_mod json e o c p n hn hrun (Or.inl hzero)

/-- Witness of C18 (amended): `{a` scanned from 0 to 2 gives 3; `{}` scanned from 0 to
2 gives 2; `{a}` scanned from 0 to 2 (closing delimiter at `end`) gives 3. -/
theorem findJsonBlockLength_unbalanced_witness :
    findJsonBlockLength [123, 97] 0 2 123 125 = (2 - 0 + 1) % 65536 ∧
    findJsonBlockLength [123, 125] 0 2 123 125 = (1 + 1) % 65536 ∧
    findJsonBlockLength [123, 97, 125] 0 2 123 125 = (2 + 1) % 65536 :=
  ⟨(findJsonBlockLength_unbalanced [123, 97] 0 2 123 125 (by decide)).1
      (by intro k hk; have h2 : k < 2 := hk; interval_cases k <;> decide),
    (findJsonBlockLength_unbalanced [123, 125] 0 2 123 125 (by decide)).2 1 (by decide)
      (by intro k hk; interval_cases k; decide) (by decide),
    (findJsonBlockLength_unbalanced [123, 97, 125] 0 2 123 125 (by decide)).2 2 (by decide)
      (by intro k hk; interval_cases k <;> decide) (by decide)⟩

/-- C18 as stated fails: in `{a` scanned from `start = 0` to `end = 2` the counter
stays at 1 and the result is 3, so `start + length` is 3, not `end = 2`; the
well-formed block `{}` whose closing delimiter is the last byte before `end = 2`
gives 2, a different length. -/
theorem findJsonBlockLength_unbalanced_past_end :
    (∀ k, k < 2 - 0 → depthFrom [123, 97] 123 125 0 k % 256 ≠ 0) ∧
    findJsonBlockLength [123, 97] 0 2 123 125 = 3 ∧
    0 + findJsonBlockLength [123, 97] 0 2 123 125 ≠ 2 ∧
    findJsonBlockLength [123, 125] 0 2 123 125 = 2 ∧
    findJsonBlockLength [123, 97] 0 2 123 125 ≠ findJsonBlockLength [123, 125] 0 2 123 125 := by
  refine ⟨?_, by decide, by decide, by decide, by decide⟩
  intro k hk
  have h2 : k < 2 := hk
  interval_cases k <;> decide

theorem counter_step (b o c op : Nat) (d : Int) (hop : (op : Int) = d) (hpos : 0 < d)
    (hd : d < 256)
    (hn : d + (if b = o then 1 else 0) - (if b = c then 1 else 0) < 256) :
    (if b = c then ((if b = o then (op + 1) % 256 else op) + 255) % 256
      else (if b = o then (op + 1) % 256 else op)) =
      (if b = c then (if b = o then op + 1 else op) - 1
        else (if b = o then op + 1 else op)) ∧
    (((if b = c then (if b = o then op + 1 else op) - 1
        else (if b = o then op + 1 else op)) : Nat) : Int) =
      d + (if b = o then 1 else 0) - (if b = c then 1 else 0) := by
  by_cases hbo : b = o
  · by_cases hbc : b = c
    · simp only [if_pos hbo, if_pos hbc] at hn ⊢
      omega
    · simp only [if_pos hbo, if_neg hbc] at hn ⊢
      omega
  · by_cases hbc : b = c
    · simp only [if_neg hbo, if_pos hbc] at hn ⊢
      omega
    · simp only [if_neg hbo, if_neg hbc] at hn ⊢
      exact ⟨trivial, by omega⟩

theorem blockScan_unbounded_eq (json : List Nat) (e o c p : Nat)
    (hdepth : ∀ k, (∀ j, j < k → 0 < depthFrom json o c p j) → p + k ≤ e →
      depthFrom json o c p k < 256)
    (fuel k op : Nat) (hop : (op : Int) = depthFrom json o c p k)
    (hpos : ∀ j, j < k → 0 < depthFrom json o c p j) (hke : p + k ≤ e) :
    blockScan json e o c fuel op (p + k) = blockScanUnbounded json e o c fuel op (p + k) := by
  induction fuel generalizing k op with
  | zero => rfl
  | succ fuel ih =>
    rw [blockScan, blockScanUnbounded]
    by_cases hc : op > 0 ∧ p + k < e
    · rw [if_pos hc, if_pos hc]
      have hk256 := hdepth k hpos hke
      have hpos2 : ∀ j, j < k + 1 → 0 < depthFrom json o c p j := by
        intro j hj
        by_cases hjk : j = k
        · rw [hjk]; omega
        · exact hpos j (by omega)
      have hn256 := hdepth (k + 1) hpos2 (by omega)
      rw [depthFrom_succ] at hn256
      have hops := counter_step (json.getD (p + k + 1) 0) o c op (depthFrom json o c p k) hop
        (by omega) hk256 hn256
      show blockScan json e o c fuel
          (if json.getD (p + k + 1) 0 = c then
            ((if json.getD (p + k + 1) 0 = o then (op + 1) % 256 else op) + 255) % 256
          else (if json.getD (p + k + 1) 0 = o then (op + 1) % 256 else op)) (p + k + 1) =
        blockScanUnbounded json e o c fuel
          (if json.getD (p + k + 1) 0 = c then
            (if json.getD (p + k + 1) 0 = o then op + 1 else op) - 1
          else (if json.getD (p + k + 1) 0 = o then op + 1 else op)) (p + k + 1)
      rw [hops.1]
      exact ih (k + 1) _ (by rw [depthFrom_succ]; exact hops.2) hpos2 (by omega)
    · rw [if_neg hc, if_neg hc]

set_option maxRecDepth 100000 in
theorem findJsonBlockLength_256_open :
    findJsonBlockLength (List.replicate 256 123 ++ List.replicate 8 97) 0 264 123 125 =
      256 := by
  decide

/-- C20: the 8-bit nesting counter of `findJsonBlockLength`. (1) The scan stops at
the first offset `start + n` behind `start` where 1 + #open - #close is congruent
to 0 modulo 256, or at `end`, and the result is `(n + 1) mod 65536`. (2) For an
opening delimiter followed by 255 further opening delimiters, with `end` beyond
them, the counter wraps to 0 and the result is 256, no closing delimiter being
present. (3) When the count stays below 256 while the scan runs, the result is
that of the same scan with an unbounded counter. -/
theorem findJsonBlockLength_counter8 (json : List Nat) (p e o c : Nat) :
    (∀ n, p + n ≤ e → (∀ k, k < n → depthFrom json o c p k % 256 ≠ 0) →
      (depthFrom json o c p n % 256 = 0 ∨ p + n = e) →
      findJsonBlockLength json p e o c = (n + 1) % 65536) ∧
    (125 ∉ List.replicate 256 123 ++ List.replicate 8 97 ∧
      findJsonBlockLength (List.replicate 256 123 ++ List.replicate 8 97) 0 264 123 125 =
        256) ∧
    (p ≤ e →
      (∀ k, (∀ j, j < k → 0 < depthFrom json o c p j) → p + k ≤ e →
        depthFrom json o c p k < 256) →
      findJsonBlockLength json p e o c = findJsonBlockLengthUnbounded json p e o c) := by
  refine ⟨fun n hn hrun hstop => findJsonBlockLength_mod json e o c p n hn hrun hstop,
    ⟨by decide, findJsonBlockLength_256_open⟩, ?_⟩
  intro hpe hdepth
  have := blockScan_unbounded_eq json e o c p hdepth (e - p) 0 1 rfl
    (fun j hj => absurd hj (Nat.not_lt_zero j)) (by omega)
  rw [Nat.add_zero] at this
  rw [findJsonBlockLength, findJsonBlockLengthUnbounded, this]

/-- Witness of C20: in `{{}}x` scanned from 0 to 5 the count first reaches 0 at
offset 3 (result 4), and the 8-bit and the unbounded scan agree. -/
theorem findJsonBlockLength_counter8_witness :
    findJsonBlockLength [123, 123, 125, 125, 120] 0 5 123 125 = (3 + 1) % 65536 ∧
    findJsonBlockLength [123, 123, 125, 125, 120] 0 5 123 125 =
      findJsonBlockLengthUnbounded [123, 123, 125, 125, 120] 0 5 123 125 :=
  ⟨(findJsonBlockLength_counter8 [123, 123, 125, 125, 120] 0 5 123 125).1 3 (by decide)
      (by intro k hk; interval_cases k <;> decide) (Or.inl (by decide)),
    (findJsonBlockLength_counter8 [123, 123, 125, 125, 120] 0 5 123 125).2.2 (by decide)
      (by
        intro k _ hk
        have h5 : k ≤ 5 := by omega
        interval_cases k <;> decide)⟩

/-! ## The match decides the result: bytes before it do not matter -/

theorem getD_append_shift (pre rest : List Nat) (j : Nat) :
    (pre ++ rest).getD (pre.length + j) 0 = rest.getD j 0 := by
  rw [List.getD_eq_getElem?_getD, List.getD_eq_getElem?_getD,
    List.getElem?_append_right (by omega)]
  congr 2
  omega

theorem memchrFrom_shift (l : List Nat) (c n off a : Nat) :
    memchrFrom l c n (a + off) = (memchrFrom l c n off).map (fun q => a + q) := by
  induction l generalizing n off with
  | nil => simp [memchrFrom]
  | cons b bs ih =>
    cases n with
    | zero => simp [memchrFrom]
    | succ n =>
      rw [memchrFrom, memchrFrom]
      by_cases hb : b = c
      · rw [if_pos hb, if_pos hb]
        rfl
      · rw [if_neg hb, if_neg hb, Nat.add_assoc, ih]

theorem memchr_shift (pre rest : List Nat) (s c n : Nat) :
    memchr (pre ++ rest) (pre.length + s) c n =
      (memchr rest s c n).map (fun q => pre.length + q) := by
  rw [memchr, memchr, memchrFrom_shift]
  congr 2
  rw [List.drop_append_eq_append_drop, List.drop_of_length_le (by omega)]
  simp

theorem skipBlanks_shift (pre rest : List Nat) (e fuel next : Nat) :
    skipBlanks (pre ++ rest) (pre.length + e) fuel (pre.length + next) =
      (skipBlanks rest e fuel next).map (fun q => pre.length + q) := by
  induction fuel generalizing next with
  | zero => rfl
  | succ fuel ih =>
    rw [skipBlanks, skipBlanks, getD_append_shift]
    by_cases hb : rest.getD next 0 = 32 ∨ rest.getD next 0 = 9
    · rw [if_pos hb, if_pos hb]
      by_cases he : next + 1 ≥ e
      · rw [if_pos he, if_pos (by omega)]
        rfl
      · rw [if_neg he, if_neg (by omega), Nat.add_assoc, ih]
    · rw [if_neg hb, if_neg hb]
      rfl

theorem blockScan_shift (pre rest : List Nat) (e o c fuel op next : Nat) :
    blockScan (pre ++ rest) (pre.length + e) o c fuel op (pre.length + next) =
      pre.length + blockScan rest e o c fuel op next := by
  induction fuel generalizing op next with
  | zero => rfl
  | succ fuel ih =>
    rw [blockScan, blockScan]
    by_cases hc : op > 0 ∧ next < e
    · rw [if_pos hc, if_pos ⟨hc.1, by omega⟩]
      simp only [Nat.add_assoc, getD_append_shift]
      exact ih _ _
    · rw [if_neg hc, if_neg (fun h => hc ⟨h.1, by omega⟩)]

theorem findJsonBlockLength_shift (pre rest : List Nat) (p e o c : Nat) :
    findJsonBlockLength (pre ++ rest) (pre.length + p) (pre.length + e) o c =
      findJsonBlockLength rest p e o c := by
  rw [findJsonBlockLength, findJsonBlockLength,
    show pre.length + e - (pre.length + p) = e - p by omega, blockScan_shift]
  congr 1
  omega

theorem numScan_shift (pre rest : List Nat) (e fuel next : Nat) (ty : lqJsonPropType_t) :
    numScan (pre ++ rest) (pre.length + e) fuel (pre.length + next) ty =
      (pre.length + (numScan rest e fuel next ty).1, (numScan rest e fuel next ty).2) := by
  induction fuel generalizing next ty with
  | zero => rfl
  | succ fuel ih =>
    rw [numScan, numScan, getD_append_shift]
    by_cases hc : rest.getD next 0 ≠ 44 ∧ rest.getD next 0 ≠ 125 ∧ next < e
    · rw [if_pos hc, if_pos ⟨hc.1, hc.2.1, by omega⟩]
      simp only [Nat.add_assoc, getD_append_shift]
      exact ih _ _
    · rw [if_neg hc, if_neg (fun h => hc ⟨h.1, h.2.1, by omega⟩)]

theorem classify_shift (pre rest : List Nat) (e p : Nat) :
    classify (pre ++ rest) (pre.length + e) (pre.length + p) =
      (classify rest e p).map (shiftValue pre.length) := by
  rw [classify, classify]
  simp only [getD_append_shift]
  split_ifs
  · simp only [Option.map_some', shiftValue, Option.map_some', findJsonBlockLength_shift]
  · simp only [Option.map_some', shiftValue, Option.map_some', findJsonBlockLength_shift]
  · rw [show pre.length + p + 1 = pre.length + (p + 1) by omega,
      show pre.length + e - (pre.length + (p + 1)) = e - (p + 1) by omega, memchr_shift]
    cases memchr rest (p + 1) 34 (e - (p + 1)) with
    | none => rfl
    | some q =>
      simp only [Option.map_some', shiftValue]
      congr 2
      omega
  · simp only [Option.map_some', shiftValue]
  · simp only [Option.map_some', shiftValue]
  · simp only [Option.map_some', shiftValue]
  · rw [show pre.length + e - (pre.length + p) = e - p by omega, numScan_shift]
    simp only [Option.map_some', shiftValue]
    congr 2
    omega

theorem cstr_append (pre rest : List Nat) (h0 : 0 ∉ pre) :
    cstr (pre ++ rest) = pre ++ cstr rest := by
  induction pre with
  | nil => rfl
  | cons b bs ih =>
    have hb : (b != 0) = true := by
      have : b ≠ 0 := fun h => h0 (by simp [h])
      simpa using this
    have hbs : 0 ∉ bs := fun h => h0 (by simp [h])
    have := ih hbs
    simp only [cstr] at this ⊢
    rw [List.cons_append, List.takeWhile_cons, hb]
    simp [this]

theorem cstr_append_short (pre rest : List Nat) (h0 : 0 ∈ pre) :
    (cstr (pre ++ rest)).length < pre.length := by
  induction pre with
  | nil => simp at h0
  | cons b bs ih =>
    simp only [cstr] at ih ⊢
    rw [List.cons_append, List.takeWhile_cons]
    by_cases hb : b = 0
    · simp [hb]
    · have hb2 : (b != 0) = true := by simpa using hb
      have hbs : 0 ∈ bs := by
        rcases List.mem_cons.mp h0 with h | h
        · exact absurd h.symm hb
        · exact h
      rw [hb2]
      simp only [if_true, List.length_cons]
      have := ih hbs
      omega

theorem startsWith_length (l pat : List Nat) (h : startsWith l pat = true) :
    pat.length ≤ l.length := by
  induction pat generalizing l with
  | nil => simp
  | cons q qs ih =>
    cases l with
    | nil => simp [startsWith] at h
    | cons b bs =>
      simp only [startsWith, Bool.and_eq_true] at h
      have := ih bs h.2
      simp only [List.length_cons]
      omega

theorem strstrFrom_some (hay pat : List Nat) (off r : Nat)
    (h : strstrFrom hay pat off = some r) :
    off ≤ r ∧ startsWith (hay.drop (r - off)) pat = true := by
  induction hay generalizing off with
  | nil =>
    rw [strstrFrom] at h
    split at h
    · rename_i hs
      have : off = r := by simpa using h
      subst this
      simpa using hs
    · simp at h
  | cons b bs ih =>
    rw [strstrFrom] at h
    split at h
    · rename_i hs
      have : off = r := by simpa using h
      subst this
      simpa using hs
    · obtain ⟨h1, h2⟩ := ih (off + 1) h
      refine ⟨by omega, ?_⟩
      rw [show r - off = (r - (off + 1)) + 1 by omega]
      simpa using h2

theorem strstrFrom_head (hay pat : List Nat) (off : Nat) (h : startsWith hay pat = true) :
    strstrFrom hay pat off = some off := by
  cases hay with
  | nil => rw [strstrFrom, if_pos h]
  | cons b bs => rw [strstrFrom, if_pos h]

theorem strstr_append (pre rest pat : List Nat) (hpat : pat ≠ [])
    (h : strstr (pre ++ rest) pat = some pre.length) :
    0 ∉ pre ∧ strstr rest pat = some 0 := by
  obtain ⟨_, h2⟩ := strstrFrom_some _ _ _ _ h
  rw [Nat.sub_zero] at h2
  have hlen := startsWith_length _ _ h2
  have hp : 0 < pat.length := List.length_pos.mpr hpat
  rw [List.length_drop] at hlen
  have h0 : 0 ∉ pre := by
    intro hmem
    have := cstr_append_short pre rest hmem
    omega
  refine ⟨h0, ?_⟩
  rw [cstr_append pre rest h0, List.drop_left] at h2
  exact strstrFrom_head _ _ _ h2

theorem strlen_append (pre rest : List Nat) (h0 : 0 ∉ pre) :
    strlen (pre ++ rest) = pre.length + strlen rest := by
  rw [strlen, cstr_append pre rest h0, List.length_append]
  rfl

/-- C17: nesting-agnostic name match in `lq_getJsonPropValue`. For all byte strings
`pre` and `rest` and every name of at most 37 bytes such that the first
occurrence of the quoted name in `pre ++ rest` starts at offset `length pre`, the
result for `pre ++ rest` is the result for `rest` with its value pointer moved
forward by `length pre`: same kind, same length, whatever `pre` holds. -/
theorem getJsonPropValue_first_match (pre rest propName : List Nat)
    (hname : strlen propName ≤ 37)
    (hmatch : strstr (pre ++ rest) (34 :: (cstr propName ++ [34])) = some pre.length) :
    lq_getJsonPropValue (pre ++ rest) propName =
      (lq_getJsonPropValue rest propName).map (shiftValue pre.length) := by
  have hpat := propSearch_of_le propName hname
  have hm : strlen propName % 256 = strlen propName := Nat.mod_eq_of_lt (by omega)
  obtain ⟨h0, hrest⟩ := strstr_append pre rest _ (by simp) hmatch
  have hlen := strlen_append pre rest h0
  rw [lq_getJsonPropValue, lq_getJsonPropValue]
  simp only [hpat, hmatch, hrest, hm, hlen]
  rw [show pre.length + strlen propName = pre.length + (0 + strlen propName) by omega,
    show pre.length + strlen rest - (pre.length + (0 + strlen propName)) =
      strlen rest - (0 + strlen propName) by omega, memchr_shift]
  cases memchr rest (0 + strlen propName) 58 (strlen rest - (0 + strlen propName)) with
  | none => rfl
  | some colonAt =>
    simp only [Option.map_some']
    rw [show pre.length + strlen rest - (pre.length + colonAt) = strlen rest - colonAt by omega,
      show pre.length + colonAt + 1 = pre.length + (colonAt + 1) by omega, skipBlanks_shift]
    cases skipBlanks rest (strlen rest) (strlen rest - colonAt) (colonAt + 1) with
    | none => rfl
    | some next =>
      simp only [Option.map_some']
      exact classify_shift pre rest (strlen rest) next

/-- Witness of C17: in `{"a":{"x":1},"x":2}` the first `"x"` is at offset 6, inside
the object of `a`; the result is the nested value `1` (Int, length 1, offset 10),
the result for `"x":1},"x":2}` moved by 6. -/
theorem getJsonPropValue_first_match_witness :
    lq_getJsonPropValue
        ([123, 34, 97, 34, 58, 123] ++
          [34, 120, 34, 58, 49, 125, 44, 34, 120, 34, 58, 50, 125]) [120] =
      (lq_getJsonPropValue [34, 120, 34, 58, 49, 125, 44, 34, 120, 34, 58, 50, 125]
        [120]).map (shiftValue ([123, 34, 97, 34, 58, 123] : List Nat).length) ∧
    lq_getJsonPropValue
        [123, 34, 97, 34, 58, 123, 34, 120, 34, 58, 49, 125, 44, 34, 120, 34, 58, 50, 125]
        [120] =
      some { value := some 10, len := 1, type := lqcJsonPropType_int } :=
  ⟨getJsonPropValue_first_match [123, 34, 97, 34, 58, 123]
      [34, 120, 34, 58, 49, 125, 44, 34, 120, 34, 58, 50, 125] [120] (by decide) (by decide),
    by decide⟩

/-! ## A value view that is not terminated inside the buffer -/

/-- C13: inputs with more segments than slots, a first segment without `=` and a
byte other than NUL at offset `qsSize`. (1) One slot, buffer `a&b=1X`, length 5:
the result keeps one entry, key `a` at offset 0, value at offset 4, and the buffer
holds no NUL from offset 4 up to offset 5 = `qsSize`. (2) Fifteen slots, fifteen
segments `a` followed by `b=1` and `X`, length 33: one entry, value at offset 32,
no NUL from offset 32 up to offset 33 = `qsSize`. In both the value view runs
past the source buffer. -/
theorem createQryStrDictionary_unterminated_value :
    ((lq_createQryStrDictionary 1 [97, 38, 98, 61, 49, 88] 5).1.count = 1 ∧
      (lq_createQryStrDictionary 1 [97, 38, 98, 61, 49, 88] 5).1.keys.getD 0 none = some 0 ∧
      (lq_createQryStrDictionary 1 [97, 38, 98, 61, 49, 88] 5).1.values.getD 0 none =
        some 4 ∧
      (lq_createQryStrDictionary 1 [97, 38, 98, 61, 49, 88] 5).2 = [97, 0, 98, 0, 49, 88] ∧
      0 ∉ ((lq_createQryStrDictionary 1 [97, 38, 98, 61, 49, 88] 5).2.drop 4).take
        (5 + 1 - 4)) ∧
    ((lq_createQryStrDictionary 15
        [97, 38, 97, 38, 97, 38, 97, 38, 97, 38, 97, 38, 97, 38, 97, 38, 97, 38, 97, 38,
          97, 38, 97, 38, 97, 38, 97, 38, 97, 38, 98, 61, 49, 88] 33).1.count = 1 ∧
      (lq_createQryStrDictionary 15
        [97, 38, 97, 38, 97, 38, 97, 38, 97, 38, 97, 38, 97, 38, 97, 38, 97, 38, 97, 38,
          97, 38, 97, 38, 97, 38, 97, 38, 97, 38, 98, 61, 49, 88] 33).1.values.getD 0 none =
        some 32 ∧
      0 ∉ ((lq_createQryStrDictionary 15
        [97, 38, 97, 38, 97, 38, 97, 38, 97, 38, 97, 38, 97, 38, 97, 38, 97, 38, 97, 38,
          97, 38, 97, 38, 97, 38, 97, 38, 97, 38, 98, 61, 49, 88] 33).2.drop 32).take
        (33 + 1 - 32)) := by
  decide

/-! ## The value start in the words of the specification

`ValueStart` describes the byte behind the colon that follows the quoted name. The
code searches the colon from the last byte of the matched name on; the two agree
when the name does not end in `:`. -/

theorem startsWith_iff_take (l pat : List Nat) :
    startsWith l pat = true ↔ l.take pat.length = pat := by
  induction pat generalizing l with
  | nil => simp [startsWith]
  | cons q qs ih =>
    cases l with
    | nil => simp [startsWith]
    | cons b bs =>
      simp only [startsWith, Bool.and_eq_true, beq_iff_eq, List.length_cons, List.take_succ_cons,
        List.cons.injEq, ih]

theorem quoted_length (propName : List Nat) :
    (34 :: (cstr propName ++ [34])).length = strlen propName + 2 := by
  simp [strlen]

theorem quotedNameAt_iff (jsonSrc propName : List Nat) (m : Nat) :
    QuotedNameAt jsonSrc propName m ↔
      startsWith ((cstr jsonSrc).drop m) (34 :: (cstr propName ++ [34])) = true := by
  rw [startsWith_iff_take, quoted_length]

theorem strstrFrom_first (hay pat : List Nat) (off m : Nat)
    (hat : startsWith (hay.drop m) pat = true)
    (hbefore : ∀ i, i < m → startsWith (hay.drop i) pat = false) :
    strstrFrom hay pat off = some (off + m) := by
  induction m generalizing hay off with
  | zero => exact strstrFrom_head hay pat off (by simpa using hat)
  | succ m ih =>
    have h0 := hbefore 0 (by omega)
    rw [List.drop_zero] at h0
    cases hay with
    | nil =>
      rw [List.drop_nil] at hat
      rw [hat] at h0
      exact absurd h0 (by simp)
    | cons b bs =>
      rw [strstrFrom, h0]
      simp only [Bool.false_eq_true, if_false]
      rw [ih bs (off + 1) (by simpa using hat)
        (fun i hi => by simpa using hbefore (i + 1) (by omega))]
      congr 1
      omega

theorem strstr_of_firstMatch (jsonSrc propName : List Nat) (m : Nat)
    (h : FirstMatch jsonSrc propName m) :
    strstr jsonSrc (34 :: (cstr propName ++ [34])) = some m := by
  have := strstrFrom_first (cstr jsonSrc) (34 :: (cstr propName ++ [34])) 0 m
    ((quotedNameAt_iff _ _ _).mp h.1)
    (fun i hi => by
      have := h.2 i hi
      rw [quotedNameAt_iff] at this
      simpa using this)
  rw [strstr, this, Nat.zero_add]

theorem strstr_none_of_noMatch (jsonSrc propName : List Nat)
    (h : ∀ i, ¬ QuotedNameAt jsonSrc propName i) :
    strstr jsonSrc (34 :: (cstr propName ++ [34])) = none := by
  apply strstrFrom_none
  intro i
  have := h i
  rw [quotedNameAt_iff] at this
  simpa using this

theorem getD_cstr (jsonSrc : List Nat) (j : Nat) (hj : j < strlen jsonSrc) :
    (cstr jsonSrc).getD j 0 = jsonSrc.getD j 0 := by
  rw [← take_strlen, List.getD_eq_getElem?_getD, List.getD_eq_getElem?_getD,
    List.getElem?_take_of_lt hj]

theorem quotedNameAt_bytes (jsonSrc propName : List Nat) (m : Nat)
    (h : QuotedNameAt jsonSrc propName m) :
    m + strlen propName + 2 ≤ strlen jsonSrc ∧
    ∀ k, k < strlen propName + 2 →
      jsonSrc.getD (m + k) 0 = (34 :: (cstr propName ++ [34])).getD k 0 := by
  have hl := congrArg List.length h
  rw [quoted_length, List.length_take, List.length_drop] at hl
  have hle : m + strlen propName + 2 ≤ strlen jsonSrc := by
    have : (cstr jsonSrc).length = strlen jsonSrc := rfl
    omega
  refine ⟨hle, ?_⟩
  intro k hk
  rw [← getD_cstr jsonSrc (m + k) (by omega), ← h, List.getD_eq_getElem?_getD,
    List.getD_eq_getElem?_getD, List.getElem?_take_of_lt hk, List.getElem?_drop]

theorem skipBlanks_first (json : List Nat) (e fuel next p : Nat) (hnp : next ≤ p)
    (hpe : p < e) (hblank : ∀ j, next ≤ j → j < p → json.getD j 0 = 32 ∨ json.getD j 0 = 9)
    (hsig : json.getD p 0 ≠ 32 ∧ json.getD p 0 ≠ 9) (hfuel : p - next < fuel) :
    skipBlanks json e fuel next = some p := by
  induction fuel generalizing next with
  | zero => omega
  | succ fuel ih =>
    rw [skipBlanks]
    by_cases hn : next = p
    · subst hn
      rw [if_neg (fun h => h.elim hsig.1 hsig.2)]
    · rw [if_pos (hblank next (le_refl _) (by omega)), if_neg (by omega)]
      exact ih (next + 1) (by omega) (fun j h1 h2 => hblank j (by omega) h2) (by omega)

theorem quoted_getD_last (propName : List Nat) (hlast : ¬ EndsInColon propName) :
    (34 :: (cstr propName ++ [34])).getD (strlen propName) 0 ≠ 58 ∧
    (34 :: (cstr propName ++ [34])).getD (strlen propName + 1) 0 ≠ 58 := by
  have hlen : (cstr propName).length = strlen propName := rfl
  constructor
  · by_cases h0 : strlen propName = 0
    · rw [h0]
      simp
    · obtain ⟨k, hk⟩ : ∃ k, strlen propName = k + 1 := ⟨strlen propName - 1, by omega⟩
      have hl : (cstr propName).getD k 0 ≠ 58 := by
        have := hlast
        rw [EndsInColon, hk] at this
        simpa using this
      rw [hk, List.getD_cons_succ, List.getD_eq_getElem?_getD,
        List.getElem?_append_left (by omega), ← List.getD_eq_getElem?_getD]
      exact hl
  · rw [List.getD_cons_succ, List.getD_eq_getElem?_getD,
      List.getElem?_append_right (by omega), hlen]
    simp

theorem memchr_of_colonAfterMatch (jsonSrc propName : List Nat) (m c : Nat)
    (hlast : ¬ EndsInColon propName) (hm : QuotedNameAt jsonSrc propName m)
    (hc : ColonAfterMatch jsonSrc propName m c) :
    memchr jsonSrc (m + strlen propName) 58 (strlen jsonSrc - (m + strlen propName)) =
      some c := by
  obtain ⟨hc1, hc2, hc3, hc4⟩ := hc
  obtain ⟨_, hbytes⟩ := quotedNameAt_bytes jsonSrc propName m hm
  obtain ⟨hq1, hq2⟩ := quoted_getD_last propName hlast
  apply memchr_first jsonSrc _ 58 _ c (by decide) (by omega) (by omega) hc3
  intro j h1 h2
  by_cases hj : m + strlen propName + 2 ≤ j
  · exact hc4 j hj h2
  · by_cases hj0 : j = m + strlen propName
    · rw [hj0, hbytes (strlen propName) (by omega)]
      exact hq1
    · have hj1 : j = m + (strlen propName + 1) := by omega
      rw [hj1, hbytes (strlen propName + 1) (by omega)]
      exact hq2

theorem codeLocates_of_valueStart (jsonSrc propName : List Nat) (p : Nat)
    (hlast : ¬ EndsInColon propName) (h : ValueStart jsonSrc propName p) :
    CodeLocates jsonSrc propName p := by
  obtain ⟨m, c, hm, hc, hcp, hpe, hblank, hs1, hs2⟩ := h
  refine ⟨m, c, strstr_of_firstMatch jsonSrc propName m hm,
    memchr_of_colonAfterMatch jsonSrc propName m c hlast hm.1 hc, ?_⟩
  exact skipBlanks_first jsonSrc (strlen jsonSrc) (strlen jsonSrc - c) (c + 1) p (by omega) hpe
    (fun j h1 h2 => hblank j (by omega) h2) ⟨hs1, hs2⟩ (by omega)

/-! ## Claims on the located value -/

theorem paddedBlock_start (n : Nat) : ValueStart (paddedBlock n) [120] 4 := by
  have h1 : strlen [120] = 1 := rfl
  have h4 : (paddedBlock n).getD 4 0 = 123 := rfl
  refine ⟨0, 3, ⟨?_, fun i hi => absurd hi (Nat.not_lt_zero i)⟩, ⟨by decide, ?_, rfl, ?_⟩,
    by decide, ?_, ?_, by rw [h4]; decide, by rw [h4]; decide⟩
  · rw [QuotedNameAt, paddedBlock_cstr]
    rfl
  · rw [paddedBlock_strlen]
    omega
  · intro j h2 h3
    rw [h1] at h2
    omega
  · rw [paddedBlock_strlen]
    omega
  · intro j h2 h3
    omega

/-- C6 (amended): object and array values in `lq_getJsonPropValue`. For a name of
at most 37 bytes that does not end in `:`, if the first significant byte after the
colon of the first match is `{` (resp. `[`) at offset `p`, the block balances at
offset `q` inside the string (`q` is the first offset behind `p` where the count
1 + #open - #close reaches 0, the count staying below 256) and the span
`q - p + 1` is below 65536, the result has kind Object (resp. Array), value at
offset `p` and length `q - p + 1`. -/
theorem getJsonPropValue_block (jsonSrc propName : List Nat) (p q : Nat)
    (hname : strlen propName ≤ 37) (hlast : ¬ EndsInColon propName)
    (hstart : ValueStart jsonSrc propName p)
    (hpq : p < q) (hq : q ≤ strlen jsonSrc) (hlen : q - p + 1 < 65536) :
    (jsonSrc.getD p 0 = 123 →
      (∀ k, k < q - p → 0 < depthFrom jsonSrc 123 125 p k ∧ depthFrom jsonSrc 123 125 p k < 256) →
      depthFrom jsonSrc 123 125 p (q - p) = 0 →
      lq_getJsonPropValue jsonSrc propName =
        some { value := some p, len := q - p + 1, type := lqcJsonPropType_object }) ∧
    (jsonSrc.getD p 0 = 91 →
      (∀ k, k < q - p → 0 < depthFrom jsonSrc 91 93 p k ∧ depthFrom jsonSrc 91 93 p k < 256) →
      depthFrom jsonSrc 91 93 p (q - p) = 0 →
      lq_getJsonPropValue jsonSrc propName =
        some { value := some p, len := q - p + 1, type := lqcJsonPropType_array }) := by
  rw [getJsonPropValue_classify jsonSrc propName p hname
    (codeLocates_of_valueStart jsonSrc propName p hlast hstart)]
  constructor
  · intro hb hpos hzero
    have := findJsonBlockLength_balanced jsonSrc (strlen jsonSrc) 123 125 p (q - p)
      (by decide) (by omega) hpos hzero
    rw [Nat.mod_eq_of_lt hlen] at this
    simp only [classify, hb, if_true, this]
  · intro hb hpos hzero
    have := findJsonBlockLength_balanced jsonSrc (strlen jsonSrc) 91 93 p (q - p)
      (by decide) (by omega) hpos hzero
    rw [Nat.mod_eq_of_lt hlen] at this
    have h1 : ¬ ((91 : Nat) = 123) := by decide
    simp only [classify, hb, h1, if_true, if_false, this]

/-- Witness of C6 (amended): `{"x":{"a":1,"b":2},"y":1}` with name `x` gives
Object, value at offset 5, length 13; `{"x": [1,[2]]}` with name `x` gives Array,
value at offset 6, length 7. -/
theorem getJsonPropValue_block_witness :
    lq_getJsonPropValue
        [123, 34, 120, 34, 58, 123, 34, 97, 34, 58, 49, 44, 34, 98, 34, 58, 50, 125, 44, 34,
          121, 34, 58, 49, 125] [120] =
      some { value := some 5, len := 17 - 5 + 1, type := lqcJsonPropType_object } ∧
    lq_getJsonPropValue [123, 34, 120, 34, 58, 32, 91, 49, 44, 91, 50, 93, 93, 125] [120] =
      some { value := some 6, len := 12 - 6 + 1, type := lqcJsonPropType_array } :=
  ⟨(getJsonPropValue_block
      [123, 34, 120, 34, 58, 123, 34, 97, 34, 58, 49, 44, 34, 98, 34, 58, 50, 125, 44, 34,
        121, 34, 58, 49, 125] [120] 5 17 (by decide) (by decide)
      ⟨1, 4, by decide, by decide, by decide, by decide,
        by intro j h1 h2; omega, by decide, by decide⟩
      (by decide) (by decide) (by decide)).1 (by decide)
      (by intro k hk; have hk2 : k < 12 := hk; interval_cases k <;> decide)
      (by decide),
    (getJsonPropValue_block [123, 34, 120, 34, 58, 32, 91, 49, 44, 91, 50, 93, 93, 125] [120]
      6 12 (by decide) (by decide)
      ⟨1, 4, by decide, by decide, by decide, by decide,
        by intro j h1 h2; interval_cases j; decide, by decide, by decide⟩
      (by decide) (by decide) (by decide)).2 (by decide)
      (by intro k hk; have hk2 : k < 6 := hk; interval_cases k <;> decide)
      (by decide)⟩

/-- C6 as stated fails. (1) In the 65540-byte text `"x":{` + 65534 spaces + `}` the
object of `x` opens at offset 4 and balances at offset 65539 with nesting depth 1,
so the claimed length is 65536; the 16-bit result of `findJsonBlockLength` is 0.
(2) In `{"a:":{},"b":1}` with name `a:` the first significant byte after the colon of
the match is `{` at offset 6 and the block balances at offset 7; the code takes
the `:` that ends the name for the colon, enters the text case at the closing
quote of the name and returns Text, value at offset 5, length 4. -/
theorem getJsonPropValue_block_65536 :
    (ValueStart (paddedBlock 65534) [120] 4 ∧ ¬ EndsInColon [120] ∧
      (paddedBlock 65534).getD 4 0 = 123 ∧
      (∀ k, k < 65539 - 4 → depthFrom (paddedBlock 65534) 123 125 4 k = 1) ∧
      depthFrom (paddedBlock 65534) 123 125 4 (65539 - 4) = 0 ∧
      65539 < strlen (paddedBlock 65534) ∧
      lq_getJsonPropValue (paddedBlock 65534) [120] =
        some { value := some 4, len := 0, type := lqcJsonPropType_object } ∧
      (0 : Nat) ≠ 65539 - 4 + 1) ∧
    (strlen [97, 58] ≤ 37 ∧ EndsInColon [97, 58] ∧
      ValueStart [123, 34, 97, 58, 34, 58, 123, 125, 44, 34, 98, 34, 58, 49, 125] [97, 58] 6 ∧
      ([123, 34, 97, 58, 34, 58, 123, 125, 44, 34, 98, 34, 58, 49, 125] : List Nat).getD 6 0 =
        123 ∧
      depthFrom [123, 34, 97, 58, 34, 58, 123, 125, 44, 34, 98, 34, 58, 49, 125] 123 125 6
        (7 - 6) = 0 ∧
      lq_getJsonPropValue [123, 34, 97, 58, 34, 58, 123, 125, 44, 34, 98, 34, 58, 49, 125]
          [97, 58] =
        some { value := some 5, len := 4, type := lqcJsonPropType_text }) := by
  refine ⟨⟨paddedBlock_start _, by decide, rfl, ?_, ?_, ?_, ?_, by decide⟩,
    ⟨by decide, by decide,
      ⟨1, 5, by decide, by decide, by decide, by decide,
        by intro j h1 h2; omega, by decide, by decide⟩,
      by decide, by decide, by decide⟩⟩
  · intro k hk
    exact paddedBlock_depth 65534 k (by omega)
  · have : depthFrom (paddedBlock 65534) 123 125 4 (65534 + 1) = 0 := by
      rw [depthFrom, paddedBlock_depth 65534 65534 (le_refl _), paddedBlock_close]
      decide
    exact this
  · rw [paddedBlock_strlen]
    decide
  · exact paddedBlock_value 65534

/-- C9 (amended): Int/Float classification in `lq_getJsonPropValue`. For a name of
at most 37 bytes that does not end in `:`, whose matched value takes the numeric
path (the first significant byte, at offset `p`, is none of `{`, `[`, `"`, `t`, `f`,
`n`), let `r` be the first offset from `p` on that holds `,` or `}`, or the length of
the string: the value is at `p` with length `r - p`, and the kind is Float when a
`.` byte lies at an offset behind `p` and before `r`, and Int when there is none
(a `.` at offset `p` itself does not count). -/
theorem getJsonPropValue_numeric_kind (jsonSrc propName : List Nat) (p r : Nat)
    (hname : strlen propName ≤ 37) (hlast : ¬ EndsInColon propName)
    (hstart : ValueStart jsonSrc propName p)
    (hnum : jsonSrc.getD p 0 ≠ 123 ∧ jsonSrc.getD p 0 ≠ 91 ∧ jsonSrc.getD p 0 ≠ 34 ∧
      jsonSrc.getD p 0 ≠ 116 ∧ jsonSrc.getD p 0 ≠ 102 ∧ jsonSrc.getD p 0 ≠ 110)
    (hpr : p ≤ r) (hr : r ≤ strlen jsonSrc)
    (hbefore : ∀ j, p ≤ j → j < r → jsonSrc.getD j 0 ≠ 44 ∧ jsonSrc.getD j 0 ≠ 125)
    (hstop : r = strlen jsonSrc ∨ jsonSrc.getD r 0 = 44 ∨ jsonSrc.getD r 0 = 125) :
    ((∃ j, p < j ∧ j < r ∧ jsonSrc.getD j 0 = 46) →
      lq_getJsonPropValue jsonSrc propName =
        some { value := some p, len := r - p, type := lqcJsonPropType_float }) ∧
    ((∀ j, p < j → j < r → jsonSrc.getD j 0 ≠ 46) →
      lq_getJsonPropValue jsonSrc propName =
        some { value := some p, len := r - p, type := lqcJsonPropType_int }) := by
  have hloc := codeLocates_of_valueStart jsonSrc propName p hlast hstart
  have hp := codeLocates_le jsonSrc propName p hloc
  obtain ⟨h1, h2, h3, h4, h5, h6⟩ := hnum
  obtain ⟨_, _, n3, n4, _⟩ := numScan_spec jsonSrc (strlen jsonSrc) (strlen jsonSrc - p) p
    lqcJsonPropType_int hp (le_refl _)
  have hs := numScan_stop jsonSrc (strlen jsonSrc) (strlen jsonSrc - p) p r
    lqcJsonPropType_int hpr hr (le_refl _) hbefore hstop
  rw [hs] at n4
  have hres : lq_getJsonPropValue jsonSrc propName =
      some (⟨some p, r - p,
        (numScan jsonSrc (strlen jsonSrc) (strlen jsonSrc - p) p lqcJsonPropType_int).2⟩ :
          lqJsonPropValue_t) := by
    rw [getJsonPropValue_classify jsonSrc propName p hname hloc]
    simp only [classify, h1, h2, h3, h4, h5, h6, if_false, hs]
  have hrdot : jsonSrc.getD r 0 ≠ 46 := by
    rcases hstop with h | h | h
    · rw [h, getD_strlen]
      decide
    · rw [h]
      decide
    · rw [h]
      decide
  constructor
  · rintro ⟨j, hj1, hj2, hj3⟩
    rw [hres, n4.mpr (Or.inr ⟨j, hj1, by omega, hj3⟩)]
  · intro hno
    have hnf : (numScan jsonSrc (strlen jsonSrc) (strlen jsonSrc - p) p
        lqcJsonPropType_int).2 ≠ lqcJsonPropType_float := by
      intro hf
      rcases n4.mp hf with h | ⟨j, hj1, hj2, hj3⟩
      · exact absurd h (by decide)
      · by_cases hjr : j = r
        · rw [hjr] at hj3
          exact hrdot hj3
        · exact hno j hj1 (by omega) hj3
    rcases n3 with h | h
    · rw [hres, h]
    · exact absurd h hnf

/-- Witness of C9 (amended): `{"f":3.14}` with name `f` gives Float (value at offset
5, length 4); `{"x":42,"y":"hi"}` with name `x` gives Int. -/
theorem getJsonPropValue_numeric_kind_witness :
    lq_getJsonPropValue [123, 34, 102, 34, 58, 51, 46, 49, 52, 125] [102] =
      some { value := some 5, len := 9 - 5, type := lqcJsonPropType_float } ∧
    lq_getJsonPropValue
        [123, 34, 120, 34, 58, 52, 50, 44, 34, 121, 34, 58, 34, 104, 105, 34, 125] [120] =
      some { value := some 5, len := 7 - 5, type := lqcJsonPropType_int } :=
  ⟨(getJsonPropValue_numeric_kind [123, 34, 102, 34, 58, 51, 46, 49, 52, 125] [102] 5 9
      (by decide) (by decide)
      ⟨1, 4, by decide, by decide, by decide, by decide,
        by intro j h1 h2; omega, by decide, by decide⟩
      (by decide) (by decide) (by decide)
      (by intro j h1 h2; interval_cases j <;> decide) (by decide)).1
      ⟨6, by decide, by decide, by decide⟩,
    (getJsonPropValue_numeric_kind
      [123, 34, 120, 34, 58, 52, 50, 44, 34, 121, 34, 58, 34, 104, 105, 34, 125] [120] 5 7
      (by decide) (by decide)
      ⟨1, 4, by decide, by decide, by decide, by decide,
        by intro j h1 h2; omega, by decide, by decide⟩
      (by decide) (by decide) (by decide)
      (by intro j h1 h2; interval_cases j <;> decide) (by decide)).2
      (by intro j h1 h2; interval_cases j; decide)⟩

/-- C9 as stated fails. (1) In `{"f":.5}` the value of `f` takes the numeric path, its
scanned span `.5` (offset 5, length 2) holds a `.` byte, and the kind is Int: the
first byte of the span is never compared with `.`. (2) In
`{"f:":3.14,"b":1}` with name `f:` the value behind the colon of the match is `3.14`
at offset 6, ending before the `,` at offset 10; the code takes the `:` that ends
the name for the colon and returns Text, value at offset 5, length 6. -/
theorem getJsonPropValue_leading_dot :
    (ValueStart [123, 34, 102, 34, 58, 46, 53, 125] [102] 5 ∧
      lq_getJsonPropValue [123, 34, 102, 34, 58, 46, 53, 125] [102] =
        some { value := some 5, len := 2, type := lqcJsonPropType_int } ∧
      ([123, 34, 102, 34, 58, 46, 53, 125] : List Nat).getD 5 0 = 46) ∧
    (EndsInColon [102, 58] ∧
      ValueStart [123, 34, 102, 58, 34, 58, 51, 46, 49, 52, 44, 34, 98, 34, 58, 49, 125]
        [102, 58] 6 ∧
      lq_getJsonPropValue [123, 34, 102, 58, 34, 58, 51, 46, 49, 52, 44, 34, 98, 34, 58, 49, 125]
          [102, 58] =
        some { value := some 5, len := 6, type := lqcJsonPropType_text }) :=
  ⟨⟨⟨1, 4, by decide, by decide, by decide, by decide,
        by intro j h1 h2; omega, by decide, by decide⟩, by decide, by decide⟩,
    ⟨by decide,
      ⟨1, 5, by decide, by decide, by decide, by decide,
        by intro j h1 h2; omega, by decide, by decide⟩, by decide⟩⟩


theorem memchr_none_of_noColon (jsonSrc propName : List Nat) (m : Nat)
    (hlast : ¬ EndsInColon propName) (hm : QuotedNameAt jsonSrc propName m)
    (hno : ∀ j, m + strlen propName + 2 ≤ j → j < strlen jsonSrc → jsonSrc.getD j 0 ≠ 58) :
    memchr jsonSrc (m + strlen propName) 58 (strlen jsonSrc - (m + strlen propName)) =
      none := by
  obtain ⟨hle, hbytes⟩ := quotedNameAt_bytes jsonSrc propName m hm
  obtain ⟨hq1, hq2⟩ := quoted_getD_last propName hlast
  apply memchr_none_of_forall
  intro j h1 h2
  by_cases hj : m + strlen propName + 2 ≤ j
  · exact hno j hj (by omega)
  · by_cases hj0 : j = m + strlen propName
    · rw [hj0, hbytes (strlen propName) (by omega)]
      exact hq1
    · have hj1 : j = m + (strlen propName + 1) := by omega
      rw [hj1, hbytes (strlen propName + 1) (by omega)]
      exact hq2

/-- C10 (amended): NotFound conditions of `lq_getJsonPropValue`. For a name of at
most 37 bytes the result is the zeroed value (kind NotFound, `NULL` value, length
0) whenever (a) the quoted name occurs at no offset of the JSON string, or (b) the
name does not end in `:` and no `:` byte lies between the end of the first match
(at offset `m`) and the end of the string, or (c) the name does not end in `:`,
the first `:` behind the first match is at offset `c`, at least one byte follows
it, and every byte between it and the end of the string is a space or a tab. -/
theorem getJsonPropValue_notFound (jsonSrc propName : List Nat)
    (hname : strlen propName ≤ 37) :
    ((∀ i, ¬ QuotedNameAt jsonSrc propName i) →
      lq_getJsonPropValue jsonSrc propName =
        some { value := none, len := 0, type := lqcJsonPropType_notFound }) ∧
    (∀ m, FirstMatch jsonSrc propName m → ¬ EndsInColon propName →
      (∀ j, m + strlen propName + 2 ≤ j → j < strlen jsonSrc → jsonSrc.getD j 0 ≠ 58) →
      lq_getJsonPropValue jsonSrc propName =
        some { value := none, len := 0, type := lqcJsonPropType_notFound }) ∧
    (∀ m c, FirstMatch jsonSrc propName m → ¬ EndsInColon propName →
      ColonAfterMatch jsonSrc propName m c →
      c + 1 < strlen jsonSrc →
      (∀ j, c < j → j < strlen jsonSrc → jsonSrc.getD j 0 = 32 ∨ jsonSrc.getD j 0 = 9) →
      lq_getJsonPropValue jsonSrc propName =
        some { value := none, len := 0, type := lqcJsonPropType_notFound }) := by
  have hpat := propSearch_of_le propName hname
  have hm : strlen propName % 256 = strlen propName := Nat.mod_eq_of_lt (by omega)
  refine ⟨?_, ?_, ?_⟩
  · intro h
    have hs := strstr_none_of_noMatch jsonSrc propName h
    simp only [lq_getJsonPropValue, hpat, hs]
  · intro m hfm hlast hcolon
    have hs := strstr_of_firstMatch jsonSrc propName m hfm
    have hmc := memchr_none_of_noColon jsonSrc propName m hlast hfm.1 hcolon
    simp only [lq_getJsonPropValue, hpat, hs, hm, hmc]
  · intro m c hfm hlast hcm hc hblank
    have hs := strstr_of_firstMatch jsonSrc propName m hfm
    have hmc := memchr_of_colonAfterMatch jsonSrc propName m c hlast hfm.1 hcm
    have hsk : skipBlanks jsonSrc (strlen jsonSrc) (strlen jsonSrc - c) (c + 1) = none :=
      skipBlanks_none _ _ _ _ hc (by omega) (fun j h1 h2 => hblank j (by omega) h2)
    simp only [lq_getJsonPropValue, hpat, hs, hm, hmc, hsk]

/-- Witness of C10 (amended): name `f` in `{"g":1}` (no match), in `{"f"` (no colon
behind the match) and in `{"f":` followed by a space and a tab (blanks up to the
end). -/
theorem getJsonPropValue_notFound_witness :
    lq_getJsonPropValue [123, 34, 103, 34, 58, 49, 125] [102] =
      some { value := none, len := 0, type := lqcJsonPropType_notFound } ∧
    lq_getJsonPropValue [123, 34, 102, 34] [102] =
      some { value := none, len := 0, type := lqcJsonPropType_notFound } ∧
    lq_getJsonPropValue [123, 34, 102, 34, 58, 32, 9] [102] =
      some { value := none, len := 0, type := lqcJsonPropType_notFound } :=
  ⟨(getJsonPropValue_notFound [123, 34, 103, 34, 58, 49, 125] [102] (by decide)).1
      (by
        intro i hq
        have hle := (quotedNameAt_bytes _ _ i hq).1
        have h3 : strlen [123, 34, 103, 34, 58, 49, 125] = 7 := by decide
        have h4 : strlen [102] = 1 := by decide
        rw [h3, h4] at hle
        have hi : i < 5 := by omega
        revert hq
        interval_cases i <;> decide),
    (getJsonPropValue_notFound [123, 34, 102, 34] [102] (by decide)).2.1 1 (by decide)
      (by decide)
      (by
        intro j h1 h2
        have h3 : strlen [123, 34, 102, 34] = 4 := by decide
        have h4 : strlen [102] = 1 := by decide
        rw [h3] at h2
        rw [h4] at h1
        omega),
    (getJsonPropValue_notFound [123, 34, 102, 34, 58, 32, 9] [102] (by decide)).2.2 1 4
      (by decide) (by decide) (by decide) (by decide)
      (by
        intro j h1 h2
        have h3 : strlen [123, 34, 102, 34, 58, 32, 9] = 7 := by decide
        rw [h3] at h2
        interval_cases j <;> decide)⟩

/-- C10 as stated fails. (b) In `{"a:"x"b"` with name `a:` the first match is at
offset 1 and no `:` byte lies between its end and the end of the string; the
code starts its colon search on the last byte of the name, takes that `:` and
returns Text, value at offset 5, length 1. (c) In `{"f":` the colon behind the
match is the last byte, so skipping the spaces and tabs behind it reaches the end
of the string at once; the skip loop is not entered and the result is Int, value
at offset 5 (the end of the string), length 0. -/
theorem getJsonPropValue_notFound_fails :
    (strlen [97, 58] ≤ 37 ∧ EndsInColon [97, 58] ∧
      FirstMatch [123, 34, 97, 58, 34, 120, 34, 98, 34] [97, 58] 1 ∧
      (∀ j, 1 + strlen [97, 58] + 2 ≤ j → j < strlen [123, 34, 97, 58, 34, 120, 34, 98, 34] →
        ([123, 34, 97, 58, 34, 120, 34, 98, 34] : List Nat).getD j 0 ≠ 58) ∧
      lq_getJsonPropValue [123, 34, 97, 58, 34, 120, 34, 98, 34] [97, 58] =
        some { value := some 5, len := 1, type := lqcJsonPropType_text }) ∧
    (strlen [102] ≤ 37 ∧ ¬ EndsInColon [102] ∧
      FirstMatch [123, 34, 102, 34, 58] [102] 1 ∧
      ColonAfterMatch [123, 34, 102, 34, 58] [102] 1 4 ∧
      4 + 1 = strlen [123, 34, 102, 34, 58] ∧
      (∀ j, 4 < j → j < strlen [123, 34, 102, 34, 58] →
        ([123, 34, 102, 34, 58] : List Nat).getD j 0 = 32 ∨
        ([123, 34, 102, 34, 58] : List Nat).getD j 0 = 9) ∧
      lq_getJsonPropValue [123, 34, 102, 34, 58] [102] =
        some { value := some 5, len := 0, type := lqcJsonPropType_int }) := by
  refine ⟨⟨by decide, by decide, by decide, ?_, by decide⟩,
    ⟨by decide, by decide, by decide, by decide, by decide, ?_, by decide⟩⟩
  · intro j h1 h2
    have h3 : strlen [123, 34, 97, 58, 34, 120, 34, 98, 34] = 9 := by decide
    have h4 : strlen [97, 58] = 2 := by decide
    rw [h3] at h2
    rw [h4] at h1
    interval_cases j <;> decide
  · intro j h1 h2
    have h3 : strlen [123, 34, 102, 34, 58] = 5 := by decide
    rw [h3] at h2
    omega

end LqCollections
